import Mathlib

/-!
# charis: `fort::options`

A shallow embedding of `src/fort/options/details/Option.hpp` (typed options:
`OptionData`, `ParseError`, `OptionBase`, `Option<T>`, `RepeatableOption<T>`) and of
`src/fort/options/Options.hpp` (`Group`), followed by the properties proved about them.

Conventions of the embedding.

* A member function that mutates its object returns the object after the call together with
  the outcome of the call: `Except.ok` when it returns, `Except.error e` when it throws `e`.
  The object of the pair is the state at the moment of the throw.
* `std::string` is `String`, `std::optional<X>` is `Option X`, `std::vector<X>` is `List X`,
  `std::map<K, V>` is an association list with unique keys.
* `int` is `Int` restricted to `INT_MIN .. INT_MAX` (32 bits).
* The output stream handed to `Format` is the text written so far; it carries the default
  formatting flags.
* Groups and options live in a `Store`; a `Group *` or `OptionBase *` is an index into it.
-/

namespace fort.options.details

/-! ## Exceptions -/

/-- The exceptions of the library. The last constructor stands for executions the
language leaves undefined (a dangling pointer, a parent chain that never ends). -/
inductive Error where
  | invalid_argument (what : String)
  | runtime_error (what : String)
  | logic_error (what : String)
  | ParseError (what : String)
  | undefined (what : String)
  deriving DecidableEq, Repr

/-- The message of `ParseError(name, value)`. -/
def ParseError.what (name value : String) : String :=
  "could not parse " ++ name ++ "='" ++ value ++ "'"

/-- The message of `ParseError(name, value, reason)`. -/
def ParseError.whatReason (name value reason : String) : String :=
  "could not parse " ++ name ++ "='" ++ value ++ "': " ++ reason

/-- `ParseError{name, value}` as a thrown value. -/
def ParseError.mk2 (name value : String) : Error :=
  Error.ParseError (ParseError.what name value)

/-! ## `OptionData` and `OptionArgs` -/

/-- `struct OptionData`. `ShortFlag` is declared `char` in `Option.hpp`, and `Options.hpp`
reads it through `has_value()` / `value()` and fills it from a `std::optional<char>`; the
embedding follows the latter use. -/
structure OptionData where
  ShortFlag : Option Char
  Name : String
  Description : String
  NumArgs : Nat := 1
  Required : Bool
  Repeatable : Bool
  deriving DecidableEq, Repr

/-- `struct OptionArgs`. -/
structure OptionArgs where
  ShortFlag : Option Char
  Name : String
  Description : String
  Required : Bool
  deriving DecidableEq, Repr

/-! ## Stream extraction and insertion of `int` -/

/-- The value `INT_MIN`. -/
def INT_MIN : Int := -2147483648

/-- The value `INT_MAX`. -/
def INT_MAX : Int := 2147483647

/-- `std::isspace` in the classic locale. -/
def isspace (c : Char) : Bool :=
  c == ' ' || c == '\t' || c == '\n' || c == Char.ofNat 11 || c == Char.ofNat 12 || c == '\r'

/-- The value of a decimal digit character. -/
def digitValue (c : Char) : Nat := c.toNat - 48

/-- The number denoted by a run of decimal digits, most significant first. -/
def digitsValue (ds : List Char) : Nat :=
  ds.foldl (fun acc d => 10 * acc + digitValue d) 0

/-- The last stage of the conversion of a field that denotes `v`: the value stored and
the fail bit. A value out of range stores the nearest limit and fails. -/
def clamp (v : Int) : Int × Bool :=
  if v < INT_MIN then (INT_MIN, true) else if v > INT_MAX then (INT_MAX, true) else (v, false)

/-- `std::istringstream iss(text); iss >> res;` for `int res`: the value of `res` afterwards
and `iss.fail()`. The sentry skips leading white space and fails, leaving `res` alone,
when nothing follows; otherwise an optional sign and the decimal digits after it are
converted: no digit stores 0 and fails, and what follows the digits stays in the
stream. -/
def extractInt (text : String) (res : Int) : Int × Bool :=
  match text.toList.dropWhile isspace with
  | [] => (res, true)
  | c :: cs =>
    let negative := c == '-'
    let field := if c == '-' || c == '+' then cs else c :: cs
    let ds := field.takeWhile Char.isDigit
    if ds.isEmpty then (0, true)
    else clamp (if negative then -(digitsValue ds : Int) else (digitsValue ds : Int))

/-- A text that begins with a number: white space, an optional sign, a run of decimal
digits as long as possible, and anything after it; `v` is the number denoted. -/
def StartsWithNumber (text : String) (v : Int) : Prop :=
  ∃ ws sign ds rest : List Char,
    text.toList = ws ++ sign ++ ds ++ rest ∧
    (∀ c ∈ ws, isspace c = true) ∧
    (sign = [] ∨ sign = ['+'] ∨ sign = ['-']) ∧
    ds ≠ [] ∧ (∀ c ∈ ds, c.isDigit = true) ∧
    (∀ c, rest.head? = some c → c.isDigit = false) ∧
    v = if sign = ['-'] then -(digitsValue ds : Int) else (digitsValue ds : Int)

/-- `out << value` for `int value` on a stream with default flags: the decimal digits,
after a minus sign when negative. -/
def insertInt (value : Int) : String :=
  if value < 0 then "-" ++ Nat.repr value.natAbs else Nat.repr value.natAbs

/-! ## `OptionBase::Parse<T>` and `OptionBase::Format<T>` -/

/-- `OptionBase::Parse<std::string>(value, res)` in an option called `name`: the value of
`res` afterwards and the outcome. -/
def Parse_string (_name : String) (value : String) (_res : String) :
    String × Except Error Unit :=
  (value, .ok ())

/-- `OptionBase::Parse<bool>(value, res)` in an option called `name`. -/
def Parse_bool (name : String) (value : String) (res : Bool) : Bool × Except Error Unit :=
  if value.isEmpty || value == "true" then (true, .ok ())
  else if value == "false" then (false, .ok ())
  else (res, .error (ParseError.mk2 name value))

/-- `OptionBase::Parse<int>(value, res)` in an option called `name`: the stream branch of
the primary template. -/
def Parse_int (name : String) (value : String) (res : Int) : Int × Except Error Unit :=
  let r := extractInt value res
  if r.2 then (r.1, .error (ParseError.mk2 name value)) else (r.1, .ok ())

/-- `OptionBase::Format<std::string>(out, value)`. -/
def Format_string (out : String) (value : String) : String := out ++ value

/-- `OptionBase::Format<bool>(out, value)`: `out << std::boolalpha << value`. -/
def Format_bool (out : String) (value : Bool) : String :=
  out ++ (if value then "true" else "false")

/-- `OptionBase::Format<int>(out, value)`. -/
def Format_int (out : String) (value : Int) : String := out ++ insertInt value

/-- What the templates `Option<T>` and `RepeatableOption<T>` use of their element type `T`:
`std::is_same_v<T, bool>`, the value-initialised `T`, and the instances of
`OptionBase::Parse<T>` and `OptionBase::Format<T>`. -/
structure ElementType (T : Type) where
  is_bool : Bool
  zero : T
  Parse : String → String → T → T × Except Error Unit
  Format : String → T → String

/-- The element type `std::string`. -/
def stringType : ElementType String :=
  ⟨false, "", Parse_string, Format_string⟩

/-- The element type `bool`. -/
def boolType : ElementType Bool :=
  ⟨true, false, Parse_bool, Format_bool⟩

/-- The element type `int`. -/
def intType : ElementType Int :=
  ⟨false, 0, Parse_int, Format_int⟩

/-! ## `Option<T>` -/

/-- The `OptionBase` slice built by `Option<T>::Option(OptionArgs &&)`; `is_bool` is
`std::is_same_v<T, bool>`. -/
def scalarData (is_bool : Bool) (args : OptionArgs) : OptionData :=
  { ShortFlag := args.ShortFlag
    Name := args.Name
    Description := args.Description
    NumArgs := if is_bool then 0 else 1
    Required := if is_bool then false else true
    Repeatable := false }

/-- The `OptionBase` slice built by `RepeatableOption<T>::RepeatableOption(OptionArgs &&)`. -/
def repeatableData (is_bool : Bool) (args : OptionArgs) : OptionData :=
  { ShortFlag := args.ShortFlag
    Name := args.Name
    Description := args.Description
    NumArgs := if is_bool then 0 else 1
    Required := false
    Repeatable := false }

/-- `class Option<T>`: the `OptionBase` slice and the member `value`. -/
structure ScalarOption (T : Type) where
  base : OptionData
  value : T

/-- `Option<T>::Option(OptionArgs &&)`. -/
def ScalarOption.new {T : Type} (E : ElementType T) (args : OptionArgs) : ScalarOption T :=
  { base := scalarData E.is_bool args, value := E.zero }

/-- `OptionBase::Name()`. -/
def ScalarOption.Name {T : Type} (o : ScalarOption T) : String := o.base.Name

/-- `OptionBase::NumArgs()`. -/
def ScalarOption.NumArgs {T : Type} (o : ScalarOption T) : Nat := o.base.NumArgs

/-- `OptionBase::Required()`. -/
def ScalarOption.Required {T : Type} (o : ScalarOption T) : Bool := o.base.Required

/-- `OptionBase::Repeatable()`. -/
def ScalarOption.Repeatable {T : Type} (o : ScalarOption T) : Bool := o.base.Repeatable

/-- `OptionBase::Short()`. -/
def ScalarOption.Short {T : Type} (o : ScalarOption T) : Option Char := o.base.ShortFlag

/-- `OptionBase::Description()`. -/
def ScalarOption.Description {T : Type} (o : ScalarOption T) : String := o.base.Description

/-- `OptionBase::SetRequired(required)`. -/
def ScalarOption.SetRequired {T : Type} (o : ScalarOption T) (required : Bool) :
    ScalarOption T :=
  { o with base := { o.base with Required := required } }

/-- `Option<T>::Parse(value)`. -/
def ScalarOption.Parse {T : Type} (E : ElementType T) (o : ScalarOption T)
    (value : Option String) : ScalarOption T × Except Error Unit :=
  if o.NumArgs > 0 && value.isNone then
    (o, .error (ParseError.mk2 o.Name ""))
  else
    let r := E.Parse o.Name (value.getD "") o.value
    ({ o with value := r.1 }, r.2)

/-- `Option<T>::Format(out)`. -/
def ScalarOption.Format {T : Type} (E : ElementType T) (o : ScalarOption T) (out : String) :
    String :=
  E.Format out o.value

/-- `Option<T>::SetDefault(value)`. -/
def ScalarOption.SetDefault {T : Type} (o : ScalarOption T) (value : T) : ScalarOption T :=
  { o.SetRequired false with value := value }

/-! ## `RepeatableOption<T>` -/

/-- `class RepeatableOption<T>`: the `OptionBase` slice and the member `value`. -/
structure RepeatableOption (T : Type) where
  base : OptionData
  value : List T

/-- `RepeatableOption<T>::RepeatableOption(OptionArgs &&)`. -/
def RepeatableOption.new {T : Type} (E : ElementType T) (args : OptionArgs) :
    RepeatableOption T :=
  { base := repeatableData E.is_bool args, value := [] }

/-- `OptionBase::Name()`. -/
def RepeatableOption.Name {T : Type} (o : RepeatableOption T) : String := o.base.Name

/-- `OptionBase::NumArgs()`. -/
def RepeatableOption.NumArgs {T : Type} (o : RepeatableOption T) : Nat := o.base.NumArgs

/-- `OptionBase::Required()`. -/
def RepeatableOption.Required {T : Type} (o : RepeatableOption T) : Bool := o.base.Required

/-- `OptionBase::Repeatable()`. -/
def RepeatableOption.Repeatable {T : Type} (o : RepeatableOption T) : Bool :=
  o.base.Repeatable

/-- `OptionBase::SetRequired(required)`. -/
def RepeatableOption.SetRequired {T : Type} (o : RepeatableOption T) (required : Bool) :
    RepeatableOption T :=
  { o with base := { o.base with Required := required } }

/-- `RepeatableOption<T>::Parse(value)`. The second argument of the call to
`OptionBase::Parse<T>` is `this->value.emplace_back()`: the sequence has its new,
value-initialised last element before the conversion runs, and the conversion writes
into that element. -/
def RepeatableOption.Parse {T : Type} (E : ElementType T) (o : RepeatableOption T)
    (value : Option String) : RepeatableOption T × Except Error Unit :=
  if o.NumArgs > 0 && value.isNone then
    (o, .error (ParseError.mk2 o.Name ""))
  else
    let r := E.Parse o.Name (value.getD "") E.zero
    ({ o with value := o.value ++ [r.1] }, r.2)

/-- `RepeatableOption<T>::Format(out)`: the loop carries the stream and `sep`. -/
def RepeatableOption.Format {T : Type} (E : ElementType T) (o : RepeatableOption T)
    (out : String) : String :=
  let loop := o.value.foldl
    (fun (st : String × String) v => (E.Format (st.1 ++ st.2) v, ", ")) (out ++ "[", "")
  loop.1 ++ "]"

/-- `RepeatableOption<T>::SetDefault(value)`. -/
def RepeatableOption.SetDefault {T : Type} (o : RepeatableOption T) (value : List T) :
    RepeatableOption T :=
  { o.SetRequired false with value := value }

/-- Successive calls of `Parse`, one per text, whatever each call's outcome. -/
def RepeatableOption.parseAll {T : Type} (E : ElementType T) (o : RepeatableOption T)
    (texts : List String) : RepeatableOption T :=
  texts.foldl (fun acc t => (acc.Parse E (some t)).1) o

end fort.options.details

namespace fort.options

open details

/-! ## `std::map` -/

/-- `m.count(k)` for a `std::map`. -/
def mapCount {κ ν : Type} [BEq κ] (m : List (κ × ν)) (k : κ) : Nat :=
  if (m.lookup k).isSome then 1 else 0

/-- `m[k] = v` for a `std::map`: the entry under `k` is replaced or created. -/
def mapAssign {κ ν : Type} [BEq κ] (m : List (κ × ν)) (k : κ) (v : ν) : List (κ × ν) :=
  (k, v) :: m.filter (fun e => !(e.1 == k))

/-- `m.insert({k, v})` for a `std::map`: nothing happens when `k` is present. -/
def mapInsert {κ ν : Type} [BEq κ] (m : List (κ × ν)) (k : κ) (v : ν) : List (κ × ν) :=
  if (m.lookup k).isSome then m else (k, v) :: m

/-! ## `Group` -/

/-- `class Group`: its data members. A `Group *` is the index of a group in the store,
a `details::OptionBase *` the index of an option. -/
structure Group where
  d_name : String
  d_description : String
  d_longFlags : List (String × Nat)
  d_parent : Option Nat
  d_shortFlags : Option (List (Char × (Nat × Nat)))
  d_subgroups : List (String × Nat)
  deriving DecidableEq, Repr

/-- The objects alive: every group and the `OptionBase` slice of every option, each at
the index that stands for its address. -/
structure Store where
  groups : List Group
  options : List OptionData
  deriving DecidableEq, Repr

/-- `Group::Group()`: the root of a tree. -/
def Group.root : Group :=
  { d_name := ""
    d_description := ""
    d_longFlags := []
    d_parent := none
    d_shortFlags := some []
    d_subgroups := [] }

/-- `Group::Group(name, description, parent)`. -/
def Group.child (name description : String) (parent : Nat) : Except Error Group :=
  if name.isEmpty then
    .error (.invalid_argument "name could not be empty for child group")
  else
    .ok
      { d_name := name
        d_description := description
        d_longFlags := []
        d_parent := some parent
        d_shortFlags := none
        d_subgroups := [] }

/-- A store that holds one default-constructed group, at index 0, and no option. -/
def Store.init : Store := { groups := [Group.root], options := [] }

/-- The store after group `g` has been replaced by `f g`. -/
def Store.updateGroup (s : Store) (g : Nat) (f : Group → Group) : Store :=
  { s with groups := s.groups.modify f g }

/-- `Group::prefix()` on group `this`, following at most `fuel` parent links. -/
def prefixAux (s : Store) : Nat → Nat → Except Error String
  | 0, _ => .error (.undefined "parent chain")
  | fuel + 1, this =>
    match s.groups[this]? with
    | none => .error (.undefined "dangling group")
    | some grp =>
      match grp.d_parent with
      | some p =>
        match prefixAux s fuel p with
        | .ok r => .ok (r ++ grp.d_name ++ ".")
        | .error e => .error e
      | none => .ok ""

/-- `Group::prefix()` on group `this`. -/
def groupPrefix (s : Store) (this : Nat) : Except Error String :=
  prefixAux s s.groups.length this

/-- `Group::fullOptionName(name)` on group `this`. -/
def fullOptionName (s : Store) (this : Nat) (name : String) : Except Error String :=
  match groupPrefix s this with
  | .ok r => .ok (r ++ name)
  | .error e => .error e

/-- `Group::parseDesignator(designator)`. -/
def parseDesignator (_designator : String) : Except Error (Option Char × String) :=
  .error (.runtime_error "not yet implemented")

/-- `Group::findShort(flag)` on group `this`, following at most `fuel` parent links.
The result `none` is the pair of null pointers. -/
def findShortAux (s : Store) : Nat → Nat → Char → Except Error (Option (Nat × Nat))
  | 0, _, _ => .error (.undefined "parent chain")
  | fuel + 1, this, flag =>
    match s.groups[this]? with
    | none => .error (.undefined "dangling group")
    | some grp =>
      match grp.d_parent with
      | some p => findShortAux s fuel p flag
      | none =>
        match grp.d_shortFlags with
        | some table => .ok (table.lookup flag)
        | none => .error (.logic_error "invalid group hierarchy")

/-- `Group::findShort(flag)` on group `this`. -/
def findShort (s : Store) (this : Nat) (flag : Char) : Except Error (Option (Nat × Nat)) :=
  findShortAux s s.groups.length this flag

/-- `Group::checkName(name)`: `std::regex_match` against `[a-zA-Z][a-zA-Z\-_0-9]*`. -/
def checkName (name : String) : Except Error Unit :=
  match name.toList with
  | [] => .error (.invalid_argument ("invalid name '" ++ name ++ "'"))
  | c :: cs =>
    if c.isAlpha && cs.all (fun x => x.isAlpha || x == '-' || x == '_' || x.isDigit) then
      .ok ()
    else .error (.invalid_argument ("invalid name '" ++ name ++ "'"))

/-- The text `std::string{1, c}`: the braces select the initializer-list constructor, so
the characters are `char(1)` and `c`. -/
def shortText (c : Char) : String := String.mk [Char.ofNat 1, c]

/-- `Group::checkArgs(designator, description)` on group `this`, over the function that
splits a designator. -/
def checkArgsWith (pd : String → Except Error (Option Char × String)) (s : Store)
    (this : Nat) (designator description : String) : Except Error OptionArgs :=
  if description.isEmpty then .error (.invalid_argument "Description cannot be empty")
  else if designator.isEmpty then .error (.invalid_argument "Designator cannot be empty")
  else
    match pd designator with
    | .error e => .error e
    | .ok (shortName, longName) =>
      match s.groups[this]? with
      | none => .error (.undefined "dangling group")
      | some grp =>
        if mapCount grp.d_longFlags longName > 0 then
          match fullOptionName s this longName with
          | .ok full => .error (.invalid_argument ("option '" ++ full ++ "' already specified"))
          | .error e => .error e
        else
          match findShort s this (shortName.getD (Char.ofNat 0)) with
          | .error e => .error e
          | .ok found =>
            match shortName, found with
            | some c, some (parent, option) =>
              match s.options[option]? with
              | none => .error (.undefined "dangling option")
              | some od =>
                match fullOptionName s parent od.Name with
                | .ok full =>
                  .error (.invalid_argument
                    ("short flag '" ++ shortText c ++ "' already used by option '" ++ full
                      ++ "'"))
                | .error e => .error e
            | _, _ =>
              .ok
                { ShortFlag := shortName
                  Name := longName
                  Description := description
                  Required := false }

/-- `Group::checkArgs(designator, description)` on group `this`. -/
def checkArgs (s : Store) (this : Nat) (designator description : String) :
    Except Error OptionArgs :=
  checkArgsWith parseDesignator s this designator description

/-- The group after `d_shortFlags.value()[c] = {owner, option}`, the table having been
`table`. -/
def assignShort (table : List (Char × (Nat × Nat))) (c : Char) (owner option : Nat)
    (g : Group) : Group :=
  { g with d_shortFlags := some (mapAssign table c (owner, option)) }

/-- The group after `d_longFlags[name] = option`. -/
def assignLong (name : String) (option : Nat) (g : Group) : Group :=
  { g with d_longFlags := mapAssign g.d_longFlags name option }

/-- `Group::mayPushShort(owner, option)` on group `this`, following at most `fuel` parent
links. -/
def mayPushShortAux (s : Store) : Nat → Nat → Nat → Nat → Store × Except Error Unit
  | 0, _, _, _ => (s, .error (.undefined "parent chain"))
  | fuel + 1, this, owner, option =>
    match s.options[option]? with
    | none => (s, .error (.undefined "dangling option"))
    | some od =>
      match od.ShortFlag with
      | none => (s, .ok ())
      | some c =>
        match s.groups[this]? with
        | none => (s, .error (.undefined "dangling group"))
        | some grp =>
          match grp.d_parent with
          | some p => mayPushShortAux s fuel p owner option
          | none =>
            match grp.d_shortFlags with
            | some table => (s.updateGroup this (assignShort table c owner option), .ok ())
            | none => (s, .error (.logic_error "invalid group hierarchy"))

/-- `Group::mayPushShort(owner, option)` on group `this`. -/
def mayPushShort (s : Store) (this owner option : Nat) : Store × Except Error Unit :=
  mayPushShortAux s s.groups.length this owner option

/-- `Group::pushOption(option)` on group `this`, the option already constructed. -/
def pushOption (s : Store) (this option : Nat) : Store × Except Error Nat :=
  match s.options[option]? with
  | none => (s, .error (.undefined "dangling option"))
  | some od =>
    match s.groups[this]? with
    | none => (s, .error (.undefined "dangling group"))
    | some _ =>
      let s1 := s.updateGroup this (assignLong od.Name option)
      match mayPushShort s1 this this option with
      | (s2, .ok ()) => (s2, .ok option)
      | (s2, .error e) => (s2, .error e)

/-- The body shared by the two overloads of `Group::AddOption`: `checkArgs`, the
construction of the option from its result, `pushOption`. -/
def addOptionWith (pd : String → Except Error (Option Char × String))
    (build : OptionArgs → OptionData) (s : Store) (this : Nat)
    (designator description : String) : Store × Except Error Nat :=
  match checkArgsWith pd s this designator description with
  | .error e => (s, .error e)
  | .ok args =>
    pushOption { s with options := s.options ++ [build args] } this s.options.length

/-- `Group::AddOption<T>(designator, description, implicit)` on group `this`, scalar
overload, over the function that splits a designator. `is_bool` is
`std::is_same_v<T, bool>`. -/
def AddOptionWith (pd : String → Except Error (Option Char × String)) (is_bool : Bool)
    (s : Store) (this : Nat) (designator description : String) : Store × Except Error Nat :=
  addOptionWith pd (scalarData is_bool) s this designator description

/-- `Group::AddOption<T>(designator, description)` on group `this`, overload for a
sequence type, over the function that splits a designator. -/
def AddRepeatableOptionWith (pd : String → Except Error (Option Char × String))
    (is_bool : Bool) (s : Store) (this : Nat) (designator description : String) :
    Store × Except Error Nat :=
  addOptionWith pd (repeatableData is_bool) s this designator description

/-- `Group::AddOption<T>(designator, description, implicit)` on group `this`. -/
def AddOption (is_bool : Bool) (s : Store) (this : Nat) (designator description : String) :
    Store × Except Error Nat :=
  AddOptionWith parseDesignator is_bool s this designator description

/-- `Group::AddSubgroup<T>(name, description)` on group `this`. -/
def AddSubgroup (s : Store) (this : Nat) (name description : String) :
    Store × Except Error Nat :=
  match checkName name with
  | .error e => (s, .error e)
  | .ok () =>
    match s.groups[this]? with
    | none => (s, .error (.undefined "dangling group"))
    | some grp =>
      if mapCount grp.d_subgroups name != 0 then
        (s, .error (.invalid_argument ("group '" ++ name ++ "' already exist")))
      else
        match Group.child name description this with
        | .error e => (s, .error e)
        | .ok group =>
          let s1 : Store := { s with groups := s.groups ++ [group] }
          (s1.updateGroup this fun g =>
            { g with d_subgroups := mapInsert g.d_subgroups name s.groups.length },
            .ok s.groups.length)

/-- `OptionBase::SetRequired(required)` on the option at index `option`. -/
def SetRequired (s : Store) (option : Nat) (required : Bool) : Store :=
  { s with options := s.options.modify (fun od => { od with Required := required }) option }

/-! ## Histories -/

/-- A call made on a tree. -/
inductive Call where
  | addOption (is_bool : Bool) (this : Nat) (designator description : String)
  | addRepeatableOption (is_bool : Bool) (this : Nat) (designator description : String)
  | addSubgroup (this : Nat) (name description : String)
  | setRequired (option : Nat) (required : Bool)
  deriving DecidableEq, Repr

/-- The store after a call, whether it returned or threw. -/
def Call.run (pd : String → Except Error (Option Char × String)) (s : Store) : Call → Store
  | .addOption b this d desc => (AddOptionWith pd b s this d desc).1
  | .addRepeatableOption b this d desc => (AddRepeatableOptionWith pd b s this d desc).1
  | .addSubgroup this n desc => (AddSubgroup s this n desc).1
  | .setRequired o r => SetRequired s o r

/-- The store after a sequence of calls. -/
def runCalls (pd : String → Except Error (Option Char × String)) (s : Store)
    (calls : List Call) : Store :=
  calls.foldl (Call.run pd) s

/-- A tree as the constructors build it: group 0 is a root (no parent, a short-flag
table); every other group has a parent of smaller index and no table. -/
def WellFormed (s : Store) : Prop :=
  (∃ r, s.groups[0]? = some r ∧ r.d_parent = none ∧ r.d_shortFlags.isSome = true) ∧
  ∀ i g, 0 < i → s.groups[i]? = some g →
    g.d_shortFlags = none ∧ ∃ p, g.d_parent = some p ∧ p < i

/-- The short-flag table of group 0, empty when there is none. -/
def rootTable (s : Store) : List (Char × (Nat × Nat)) :=
  match s.groups[0]? with
  | some r => r.d_shortFlags.getD []
  | none => []

/-- A later state of a group: same name, same parent, a table exactly when there was
one, and every entry of its registries still in place. -/
def GroupLe (g g' : Group) : Prop :=
  g'.d_name = g.d_name ∧ g'.d_parent = g.d_parent ∧
  g'.d_shortFlags.isSome = g.d_shortFlags.isSome ∧
  (∀ n o, g.d_longFlags.lookup n = some o → g'.d_longFlags.lookup n = some o) ∧
  (∀ c v, (g.d_shortFlags.getD []).lookup c = some v →
    (g'.d_shortFlags.getD []).lookup c = some v)

/-- A later state of a store: every group is still there, in a later state, and every
option is still there with its name and short flag. -/
def Extends (s s' : Store) : Prop :=
  (∀ (i : Nat) (g : Group), s.groups[i]? = some g →
    ∃ g', s'.groups[i]? = some g' ∧ GroupLe g g') ∧
  (∀ (j : Nat) (od : OptionData), s.options[j]? = some od →
    ∃ od', s'.options[j]? = some od' ∧ od'.Name = od.Name ∧ od'.ShortFlag = od.ShortFlag)

/-- Whether `sub` occurs in `text`. -/
def occursIn (sub text : String) : Bool :=
  text.toList.tails.any fun t => sub.toList.isPrefixOf t

/-! ## Names and chains, as the specification words them -/

/-- An ASCII letter, `a` to `z` or `A` to `Z`. -/
def isAsciiLetter (c : Char) : Bool :=
  (97 ≤ c.toNat && c.toNat ≤ 122) || (65 ≤ c.toNat && c.toNat ≤ 90)

/-- An ASCII digit, `0` to `9`. -/
def isAsciiDigit (c : Char) : Bool := 48 ≤ c.toNat && c.toNat ≤ 57

/-- The whole of `name` matches `[a-zA-Z][a-zA-Z0-9_-]*`: it is not empty, its first
character is an ASCII letter, and every later character is an ASCII letter, a digit,
`_` or `-`. -/
def matchesNamePattern (name : String) : Bool :=
  match name.toList with
  | [] => false
  | c :: cs =>
    isAsciiLetter c &&
      cs.all fun x => isAsciiLetter x || isAsciiDigit x || x == '_' || x == '-'

/-- The groups of `path` are nested one in the other below `parent`: each is a group of
the store whose parent is the one before it. -/
def isChain (s : Store) : Nat → List Nat → Bool
  | _, [] => true
  | parent, g :: rest =>
    (match s.groups[g]? with
      | some grp => grp.d_parent == some parent
      | none => false) && isChain s g rest

/-- The names of the groups of `path`. -/
def chainNames (s : Store) (path : List Nat) : List String :=
  path.map fun g =>
    match s.groups[g]? with
    | some grp => grp.d_name
    | none => ""

/-- The text `n1 + "." + ... + nk + "."`. -/
def dotted : List String → String
  | [] => ""
  | n :: ns => n ++ "." ++ dotted ns

end fort.options

/-! # Properties -/

namespace fort.options

open details



/-! ## Texts -/

theorem isPrefixOf_append_self (x post : List Char) : x.isPrefixOf (x ++ post) = true := by
  induction x with
  | nil => simp [List.isPrefixOf]
  | cons a x ih => simp [List.isPrefixOf, ih]

theorem occursIn_middle (pre x post : String) : occursIn x (pre ++ x ++ post) = true := by
  unfold occursIn
  rw [List.any_eq_true]
  refine ⟨x.toList ++ post.toList, ?_, isPrefixOf_append_self _ _⟩
  rw [List.mem_tails]
  exact ⟨pre.toList, by simp [String.toList, String.data_append]⟩

/-! ## Typed options -/

theorem scalar_parse_none {T : Type} (E : ElementType T) (o : ScalarOption T)
    (h : 0 < o.NumArgs) : o.Parse E none = (o, .error (ParseError.mk2 o.Name "")) := by
  simp [ScalarOption.Parse, h]

theorem repeatable_parse_none {T : Type} (E : ElementType T) (o : RepeatableOption T)
    (h : 0 < o.NumArgs) : o.Parse E none = (o, .error (ParseError.mk2 o.Name "")) := by
  simp [RepeatableOption.Parse, h]

theorem scalar_parse_some {T : Type} (E : ElementType T) (o : ScalarOption T) (t : String) :
    o.Parse E (some t) =
      ({ o with value := (E.Parse o.Name t o.value).1 }, (E.Parse o.Name t o.value).2) := by
  simp [ScalarOption.Parse]

theorem repeatable_parse_some {T : Type} (E : ElementType T) (o : RepeatableOption T)
    (t : String) :
    o.Parse E (some t) =
      ({ o with value := o.value ++ [(E.Parse o.Name t E.zero).1] },
        (E.Parse o.Name t E.zero).2) := by
  simp [RepeatableOption.Parse]

theorem Parse_bool_other (name t : String) (res : Bool) (h0 : t ≠ "") (h1 : t ≠ "true")
    (h2 : t ≠ "false") : Parse_bool name t res = (res, .error (ParseError.mk2 name t)) := by
  have he : t.isEmpty = false := by
    cases hb : t.isEmpty
    · rfl
    · exact absurd (by simpa [String.isEmpty_iff] using hb) h0
  simp [Parse_bool, he, h1, h2]

/-- C4. A boolean scalar option (arity 0) takes the value true from an absent text, from
the empty text and from "true", the value false from "false", each without an error,
whatever it held before; any other text throws the `ParseError` of the option and the
text. -/
theorem bool_parse_rule (o : ScalarOption Bool) (h : o.NumArgs = 0) :
    o.Parse boolType none = ({ o with value := true }, .ok ()) ∧
    o.Parse boolType (some "") = ({ o with value := true }, .ok ()) ∧
    o.Parse boolType (some "true") = ({ o with value := true }, .ok ()) ∧
    o.Parse boolType (some "false") = ({ o with value := false }, .ok ()) ∧
    ∀ t : String, t ≠ "" → t ≠ "true" → t ≠ "false" →
      (o.Parse boolType (some t)).2 = .error (ParseError.mk2 o.Name t) := by
  have e0 : ∀ (n : String) (r : Bool), Parse_bool n "" r = (true, .ok ()) := fun _ _ => rfl
  have e1 : ∀ (n : String) (r : Bool), Parse_bool n "true" r = (true, .ok ()) := fun _ _ => rfl
  have e2 : ∀ (n : String) (r : Bool), Parse_bool n "false" r = (false, .ok ()) :=
    fun _ _ => rfl
  refine ⟨?_, ?_, ?_, ?_, ?_⟩
  · simp [ScalarOption.Parse, h, boolType, e0]
  · simp [ScalarOption.Parse, boolType, e0]
  · simp [ScalarOption.Parse, boolType, e1]
  · simp [ScalarOption.Parse, boolType, e2]
  · intro t h0 h1 h2
    rw [scalar_parse_some]
    simp [boolType, Parse_bool_other _ _ _ h0 h1 h2]

/-- C4, at a freshly built boolean option holding false, with the texts "True", "1",
"yes" and " true" rejected. -/
theorem bool_parse_rule_witness :
    (ScalarOption.new boolType ⟨some 'v', "verbose", "be chatty", false⟩).NumArgs = 0 ∧
    ((ScalarOption.new boolType ⟨some 'v', "verbose", "be chatty", false⟩).Parse boolType
        none).1.value = true ∧
    ∀ t ∈ ["True", "1", "yes", " true"],
      ((ScalarOption.new boolType ⟨some 'v', "verbose", "be chatty", false⟩).Parse boolType
        (some t)).2 = .error (ParseError.mk2 "verbose" t) := by
  have key := bool_parse_rule (ScalarOption.new boolType ⟨some 'v', "verbose", "be chatty",
    false⟩) rfl
  refine ⟨rfl, by rw [key.1], ?_⟩
  intro t ht
  simp only [List.mem_cons, List.mem_singleton, List.mem_nil_iff, or_false] at ht
  rcases ht with rfl | rfl | rfl | rfl <;>
    exact key.2.2.2.2 _ (by decide) (by decide) (by decide)

/-- C5. A repeatable boolean option holding `[true]`: `Parse("maybe")` throws, and the
sequence afterwards is `[true, false]`; a scalar `int` option holding 5: `Parse("abc")`
throws, and the value afterwards is 0. -/
theorem parse_failure_changes_value :
    (RepeatableOption.Parse boolType
        ((RepeatableOption.new boolType ⟨none, "flag", "a flag", false⟩).SetDefault [true])
        (some "maybe")
      = ({ (RepeatableOption.new boolType ⟨none, "flag", "a flag", false⟩).SetDefault [true]
            with value := [true, false] },
          .error (ParseError.mk2 "flag" "maybe"))) ∧
    (ScalarOption.Parse intType
        ((ScalarOption.new intType ⟨none, "count", "a count", false⟩).SetDefault 5)
        (some "abc")
      = ({ (ScalarOption.new intType ⟨none, "count", "a count", false⟩).SetDefault 5
            with value := 0 },
          .error (ParseError.mk2 "count" "abc"))) := by
  constructor <;> rfl

theorem parseAll_string_value (o : RepeatableOption String) (texts : List String) :
    (o.parseAll stringType texts).value = o.value ++ texts := by
  unfold RepeatableOption.parseAll
  induction texts generalizing o with
  | nil => simp
  | cons t ts ih =>
    rw [List.foldl_cons, ih]
    simp [repeatable_parse_some, stringType, Parse_string]

theorem format_loop_string (ts : List String) (p acc : String) :
    (ts.foldl (fun (st : String × String) v => (Format_string (st.1 ++ st.2) v, ", "))
      (p ++ acc, ", ")).1 = p ++ String.intercalate.go acc ", " ts := by
  induction ts generalizing acc with
  | nil => simp [String.intercalate.go]
  | cons t ts ih =>
    rw [List.foldl_cons, String.intercalate.go]
    have : Format_string (p ++ acc ++ ", ") t = p ++ (acc ++ ", " ++ t) := by
      simp [Format_string, String.append_assoc]
    simp only [this]
    exact ih _

theorem format_string_list (o : RepeatableOption String) (out : String) :
    o.Format stringType out = out ++ "[" ++ ", ".intercalate o.value ++ "]" := by
  unfold RepeatableOption.Format
  cases hv : o.value with
  | nil => simp [String.intercalate]
  | cons t ts =>
    simp only [List.foldl_cons, String.intercalate, stringType]
    have h0 : Format_string (out ++ "[" ++ "") t = (out ++ "[") ++ t := by
      simp [Format_string]
    rw [h0, format_loop_string]

/-- C6. On a freshly constructed repeatable text option, `Parse(t1)`, ..., `Parse(tn)` in
that order all return, the sequence afterwards is `[t1, ..., tn]`, and `Format` writes
"[", the elements separated by ", ", and "]" ("[a, b, c]" for a, b, c; "[]" for none). -/
theorem repeatable_accumulates (args : OptionArgs) (texts : List String) (out : String) :
    (∀ (o : RepeatableOption String) (t : String),
      (o.Parse stringType (some t)).2 = .ok ()) ∧
    ((RepeatableOption.new stringType args).parseAll stringType texts).value = texts ∧
    ((RepeatableOption.new stringType args).parseAll stringType texts).Format stringType out
      = out ++ "[" ++ ", ".intercalate texts ++ "]" ∧
    ((RepeatableOption.new stringType args).parseAll stringType ["a", "b", "c"]).Format
      stringType "" = "[a, b, c]" ∧
    (RepeatableOption.new stringType args).Format stringType "" = "[]" := by
  have hv : ∀ ts, ((RepeatableOption.new stringType args).parseAll stringType ts).value
      = ts := by
    intro ts
    rw [parseAll_string_value]
    simp [RepeatableOption.new]
  refine ⟨?_, hv texts, ?_, ?_, ?_⟩
  · intro o t
    simp [repeatable_parse_some, stringType, Parse_string]
  · rw [format_string_list, hv]
  · rw [format_string_list, hv]
    rfl
  · rw [format_string_list]
    rfl

/-- C9. With a non-zero arity, scalar or repeatable, whatever the element type and its
conversion: `Parse` of an absent text throws the `ParseError` of the option's name and
the empty text, and the option afterwards is the option before (value, sequence and
metadata); options built for an element type other than `bool` have arity 1. -/
theorem parse_missing_value {T : Type} (E : ElementType T) :
    (∀ o : ScalarOption T, 0 < o.NumArgs →
      o.Parse E none = (o, .error (ParseError.mk2 o.Name ""))) ∧
    (∀ o : RepeatableOption T, 0 < o.NumArgs →
      o.Parse E none = (o, .error (ParseError.mk2 o.Name ""))) ∧
    (E.is_bool = false → ∀ args : OptionArgs,
      (ScalarOption.new E args).NumArgs = 1 ∧ (RepeatableOption.new E args).NumArgs = 1) := by
  refine ⟨fun o h => scalar_parse_none E o h, fun o h => repeatable_parse_none E o h, ?_⟩
  intro hb args
  simp [ScalarOption.new, RepeatableOption.new, ScalarOption.NumArgs,
    RepeatableOption.NumArgs, scalarData, repeatableData, hb]

/-- C9, at an `int` option holding 5 and at a repeatable text option holding "a", "b". -/
theorem parse_missing_value_witness :
    (((ScalarOption.new intType ⟨none, "count", "a count", false⟩).SetDefault 5).Parse
        intType none).1.value = 5 ∧
    (((RepeatableOption.new stringType ⟨none, "tag", "a tag", false⟩).SetDefault
        ["a", "b"]).Parse stringType none).1.value = ["a", "b"] ∧
    (((RepeatableOption.new stringType ⟨none, "tag", "a tag", false⟩).SetDefault
        ["a", "b"]).Parse stringType none).2 = .error (ParseError.mk2 "tag" "") := by
  refine ⟨?_, ?_, ?_⟩
  · rw [(parse_missing_value intType).1 _ (by decide)]
    rfl
  · rw [(parse_missing_value stringType).2.1 _ (by decide)]
    rfl
  · rw [(parse_missing_value stringType).2.1 _ (by decide)]
    rfl

theorem extractInt_fail_irrelevant (v : String) (r r' : Int) :
    (extractInt v r).2 = (extractInt v r').2 := by
  unfold extractInt
  split
  · rfl
  · simp only

/-- C10. A text the stream extraction of an `int` fails on (for example "abc"), parsed
by a scalar or repeatable `int` option named n: `Parse` throws a `ParseError` whose
message is "could not parse " + n + "='" + v + "'", in which both n and v occur. -/
theorem parse_error_message (o : ScalarOption Int) (r : RepeatableOption Int) (v : String)
    (hv : (extractInt v 0).2 = true) :
    (o.Parse intType (some v)).2
      = .error (.ParseError ("could not parse " ++ o.Name ++ "='" ++ v ++ "'")) ∧
    (r.Parse intType (some v)).2
      = .error (.ParseError ("could not parse " ++ r.Name ++ "='" ++ v ++ "'")) ∧
    occursIn o.Name ("could not parse " ++ o.Name ++ "='" ++ v ++ "'") = true ∧
    occursIn v ("could not parse " ++ o.Name ++ "='" ++ v ++ "'") = true := by
  have h1 : (extractInt v o.value).2 = true := by
    rw [extractInt_fail_irrelevant v o.value 0, hv]
  refine ⟨?_, ?_, ?_, ?_⟩
  · simp [scalar_parse_some, intType, Parse_int, h1, ParseError.mk2, ParseError.what]
  · simp [repeatable_parse_some, intType, Parse_int, hv, ParseError.mk2, ParseError.what]
  · have := occursIn_middle "could not parse " o.Name ("='" ++ v ++ "'")
    simpa [String.append_assoc] using this
  · exact occursIn_middle ("could not parse " ++ o.Name ++ "='") v "'"

/-- C10, at the text "abc" and an option named "count". -/
theorem parse_error_message_witness :
    (extractInt "abc" 0).2 = true ∧
    ((ScalarOption.new intType ⟨some 'c', "count", "a count", false⟩).Parse intType
        (some "abc")).2 = .error (.ParseError "could not parse count='abc'") :=
  ⟨by decide,
    (parse_error_message (ScalarOption.new intType ⟨some 'c', "count", "a count", false⟩)
      (RepeatableOption.new intType ⟨none, "n", "d", false⟩) "abc" (by decide)).1⟩

/-- C1. `Group::parseDesignator` on "v,verbose" and on "verbose": each call throws
`std::runtime_error("not yet implemented")`, and so does `AddOption` on a fresh root. -/
theorem parseDesignator_throws :
    parseDesignator "v,verbose" = .error (.runtime_error "not yet implemented") ∧
    parseDesignator "verbose" = .error (.runtime_error "not yet implemented") ∧
    AddOption false Store.init 0 "v,verbose" "be chatty"
      = (Store.init, .error (.runtime_error "not yet implemented")) := by
  refine ⟨rfl, rfl, rfl⟩



/-! ## Decimal text of an `int` -/

theorem digitChar_isDigit (k : Nat) (h : k < 10) :
    (Nat.digitChar k).isDigit = true ∧ digitValue (Nat.digitChar k) = k := by
  interval_cases k <;> exact ⟨by decide, by decide⟩

theorem isspace_not_digit (c : Char) (h : c.isDigit = true) : isspace c = false := by
  cases hs : isspace c
  · rfl
  · exfalso
    unfold isspace at hs
    simp only [Bool.or_eq_true, beq_iff_eq] at hs
    rcases hs with ((((rfl | rfl) | rfl) | rfl) | rfl) | rfl <;> exact absurd h (by decide)

theorem toDigitsCore_spec (fuel n : Nat) (ds : List Char) (h : n < fuel) :
    ∃ pre : List Char, Nat.toDigitsCore 10 fuel n ds = pre ++ ds ∧ pre ≠ [] ∧
      (∀ c ∈ pre, c.isDigit = true) ∧ digitsValue pre = n := by
  induction fuel generalizing n ds with
  | zero => omega
  | succ fuel ih =>
    have hd := digitChar_isDigit (n % 10) (Nat.mod_lt _ (by decide))
    unfold Nat.toDigitsCore
    by_cases h0 : n / 10 = 0
    · refine ⟨[Nat.digitChar (n % 10)], by simp [h0], by simp, by simpa using hd.1, ?_⟩
      simp only [digitsValue, List.foldl_cons, List.foldl_nil, hd.2]
      omega
    · obtain ⟨pre, hpre, -, hdig, hval⟩ := ih (n / 10) (Nat.digitChar (n % 10) :: ds) (by omega)
      refine ⟨pre ++ [Nat.digitChar (n % 10)], by simp [h0, hpre], by simp, ?_, ?_⟩
      · intro c hc
        rcases List.mem_append.1 hc with hc | hc
        · exact hdig c hc
        · rw [List.mem_singleton.1 hc]
          exact hd.1
      · unfold digitsValue at hval ⊢
        rw [List.foldl_append, hval]
        simp only [List.foldl_cons, List.foldl_nil, hd.2]
        omega

theorem repr_spec (n : Nat) :
    ∃ ds : List Char, Nat.repr n = String.mk ds ∧ ds ≠ [] ∧
      (∀ c ∈ ds, c.isDigit = true) ∧ digitsValue ds = n := by
  obtain ⟨pre, hpre, hne, hdig, hval⟩ := toDigitsCore_spec (n + 1) n [] (by omega)
  refine ⟨pre, ?_, hne, hdig, hval⟩
  simp [Nat.repr, Nat.toDigits, hpre, List.asString]

theorem extractInt_of_shape (text : String) (res : Int) (ws sign ds rest : List Char)
    (htext : text.toList = ws ++ sign ++ ds ++ rest)
    (hws : ∀ c ∈ ws, isspace c = true)
    (hsign : sign = [] ∨ sign = ['+'] ∨ sign = ['-'])
    (hne : ds ≠ []) (hds : ∀ c ∈ ds, c.isDigit = true)
    (hrest : ∀ c, rest.head? = some c → c.isDigit = false) :
    extractInt text res
      = clamp (if sign = ['-'] then -(digitsValue ds : Int) else (digitsValue ds : Int)) := by
  have htake : List.takeWhile Char.isDigit (ds ++ rest) = ds := by
    rw [List.takeWhile_append_of_pos hds]
    cases rest with
    | nil => simp
    | cons r rs => simp [hrest r rfl]
  obtain ⟨d, ds', rfl⟩ := List.exists_cons_of_ne_nil hne
  have hd : d.isDigit = true := hds d (by simp)
  have hdm : (d == '-') = false := by
    cases h : d == '-'
    · rfl
    · rw [beq_iff_eq] at h; subst h; exact absurd hd (by decide)
  have hdp : (d == '+') = false := by
    cases h : d == '+'
    · rfl
    · rw [beq_iff_eq] at h; subst h; exact absurd hd (by decide)
  have htake' : List.takeWhile Char.isDigit (d :: (ds' ++ rest)) = d :: ds' := by
    simpa using htake
  unfold extractInt
  rw [htext, List.append_assoc, List.append_assoc, List.dropWhile_append_of_pos hws]
  rcases hsign with rfl | rfl | rfl
  · rw [List.nil_append, List.cons_append, List.dropWhile_cons_of_neg
      (by simp [isspace_not_digit d hd])]
    simp [hdm, hdp, htake', hd]
  · rw [List.singleton_append, List.dropWhile_cons_of_neg (by decide)]
    simp [htake', hd]
  · rw [List.singleton_append, List.dropWhile_cons_of_neg (by decide)]
    simp [htake', hd]

theorem extractInt_of_number (text : String) (res v : Int) (h : StartsWithNumber text v) :
    extractInt text res = clamp v := by
  obtain ⟨ws, sign, ds, rest, htext, hws, hsign, hne, hds, hrest, rfl⟩ := h
  exact extractInt_of_shape text res ws sign ds rest htext hws hsign hne hds hrest

theorem dropWhile_head_neg {α : Type} (p : α → Bool) (l : List α) (c : α) (cs : List α)
    (h : l.dropWhile p = c :: cs) : p c = false := by
  induction l with
  | nil => simp at h
  | cons a l ih =>
    by_cases ha : p a = true
    · rw [List.dropWhile_cons_of_pos ha] at h
      exact ih h
    · rw [List.dropWhile_cons_of_neg ha] at h
      injection h with h1 _
      subst h1
      simpa using ha

theorem dropWhile_head?_neg {α : Type} (p : α → Bool) (l : List α) (c : α)
    (h : (l.dropWhile p).head? = some c) : p c = false := by
  cases hd : l.dropWhile p with
  | nil => simp [hd] at h
  | cons a as =>
    rw [hd] at h
    simp only [List.head?_cons, Option.some.injEq] at h
    subst h
    exact dropWhile_head_neg p l a as hd

theorem clamp_ok (v : Int) (h : (clamp v).2 = false) :
    INT_MIN ≤ v ∧ v ≤ INT_MAX ∧ (clamp v).1 = v := by
  unfold clamp at h ⊢
  by_cases h1 : v < INT_MIN
  · simp [h1] at h
  · by_cases h2 : v > INT_MAX
    · simp [h1, h2] at h
    · simp only [h1, h2, if_false]
      exact ⟨by omega, by omega, trivial⟩

theorem clamp_of_range (v : Int) (h1 : INT_MIN ≤ v) (h2 : v ≤ INT_MAX) : clamp v = (v, false) := by
  unfold clamp
  rw [if_neg (by omega), if_neg (by omega)]

theorem extractInt_nil (text : String) (res : Int)
    (h : text.toList.dropWhile isspace = []) : extractInt text res = (res, true) := by
  unfold extractInt
  rw [h]

theorem extractInt_cons (text : String) (res : Int) (c : Char) (cs : List Char)
    (h : text.toList.dropWhile isspace = c :: cs) :
    extractInt text res =
      if ((if (c == '-' || c == '+') = true then cs else c :: cs).takeWhile
          Char.isDigit).isEmpty = true then (0, true)
      else clamp (if (c == '-') = true then
          -(digitsValue ((if (c == '-' || c == '+') = true then cs else c :: cs).takeWhile
            Char.isDigit) : Int)
        else (digitsValue ((if (c == '-' || c == '+') = true then cs else c :: cs).takeWhile
            Char.isDigit) : Int)) := by
  unfold extractInt
  rw [h]

theorem number_of_extractInt (text : String) (res : Int) (h : (extractInt text res).2 = false) :
    ∃ v, StartsWithNumber text v ∧ INT_MIN ≤ v ∧ v ≤ INT_MAX ∧ (extractInt text res).1 = v := by
  have hsplit := List.takeWhile_append_dropWhile isspace text.toList
  cases hdrop : text.toList.dropWhile isspace with
  | nil => rw [extractInt_nil text res hdrop] at h; simp at h
  | cons c cs =>
    have hc : isspace c = false := dropWhile_head_neg _ _ _ _ hdrop
    rw [hdrop] at hsplit
    rw [extractInt_cons text res c cs hdrop] at h ⊢
    by_cases hsgn : (c == '-' || c == '+') = true
    · rw [if_pos hsgn] at h ⊢
      by_cases hempty : (List.takeWhile Char.isDigit cs).isEmpty = true
      · simp [hempty] at h
      · rw [if_neg hempty] at h ⊢
        obtain ⟨h1, h2, h3⟩ := clamp_ok _ h
        refine ⟨_, ⟨text.toList.takeWhile isspace, [c], cs.takeWhile Char.isDigit,
          cs.dropWhile Char.isDigit, ?_, ?_, ?_, ?_, ?_, ?_, rfl⟩, ?_, ?_, ?_⟩
        · rw [List.append_assoc, List.append_assoc, List.takeWhile_append_dropWhile,
            List.singleton_append, hsplit]
        · intro x hx
          exact (List.mem_takeWhile_imp hx)
        · simp only [Bool.or_eq_true, beq_iff_eq] at hsgn
          rcases hsgn with rfl | rfl <;> simp
        · simpa using hempty
        · intro x hx
          exact (List.mem_takeWhile_imp hx)
        · intro x hx
          exact dropWhile_head?_neg _ _ _ hx
        · simpa [List.singleton_inj, beq_iff_eq] using h1
        · simpa [List.singleton_inj, beq_iff_eq] using h2
        · simpa [List.singleton_inj, beq_iff_eq] using h3
    · rw [if_neg hsgn] at h ⊢
      simp only [Bool.or_eq_true, beq_iff_eq, not_or] at hsgn
      have hneg : (c == '-') = false := by simpa using hsgn.1
      by_cases hempty : (List.takeWhile Char.isDigit (c :: cs)).isEmpty = true
      · simp [hempty] at h
      · rw [if_neg hempty] at h ⊢
        simp only [hneg, Bool.false_eq_true, if_false] at h ⊢
        obtain ⟨h1, h2, h3⟩ := clamp_ok _ h
        refine ⟨_, ⟨text.toList.takeWhile isspace, [], (c :: cs).takeWhile Char.isDigit,
          (c :: cs).dropWhile Char.isDigit, ?_, ?_, ?_, ?_, ?_, ?_, ?_⟩, h1, h2, h3⟩
        · rw [List.append_nil, List.append_assoc, List.takeWhile_append_dropWhile, hsplit]
        · intro x hx
          exact (List.mem_takeWhile_imp hx)
        · exact Or.inl rfl
        · simpa using hempty
        · intro x hx
          exact (List.mem_takeWhile_imp hx)
        · intro x hx
          exact dropWhile_head?_neg _ _ _ hx
        · simp

theorem insertInt_number (i : Int) : StartsWithNumber (insertInt i) i := by
  obtain ⟨ds, hrepr, hne, hds, hval⟩ := repr_spec i.natAbs
  unfold insertInt
  by_cases hi : i < 0
  · refine ⟨[], ['-'], ds, [], ?_, by simp, by simp, hne, hds, by simp, ?_⟩
    · rw [if_pos hi, hrepr]
      simp [String.toList, String.data_append]
    · rw [hval]
      simp only [if_true]
      omega
  · refine ⟨[], [], ds, [], ?_, by simp, by simp, hne, hds, by simp, ?_⟩
    · rw [if_neg hi, hrepr]
      simp [String.toList]
    · rw [hval]
      simp only [List.nil_eq, reduceCtorEq, if_false]
      omega

theorem Parse_int_of_number (name text : String) (res v : Int)
    (h : StartsWithNumber text v) (h1 : INT_MIN ≤ v) (h2 : v ≤ INT_MAX) :
    Parse_int name text res = (v, .ok ()) := by
  unfold Parse_int
  rw [extractInt_of_number text res v h, clamp_of_range v h1 h2]
  simp

/-- C7. Scalar options, whatever they held: `Parse` of "true" or of "false" into a
boolean option, of any text into a text option, and of the decimal text of any `int` into
an `int` option returns, and `Format` then writes the text that was parsed. -/
theorem format_parse_round_trip (out : String) :
    (∀ (o : ScalarOption Bool) (t : String), t = "true" ∨ t = "false" →
      (o.Parse boolType (some t)).2 = .ok () ∧
      (o.Parse boolType (some t)).1.Format boolType out = out ++ t) ∧
    (∀ (o : ScalarOption String) (t : String),
      (o.Parse stringType (some t)).2 = .ok () ∧
      (o.Parse stringType (some t)).1.Format stringType out = out ++ t) ∧
    (∀ (o : ScalarOption Int) (i : Int), INT_MIN ≤ i → i ≤ INT_MAX →
      (o.Parse intType (some (insertInt i))).2 = .ok () ∧
      (o.Parse intType (some (insertInt i))).1.value = i ∧
      (o.Parse intType (some (insertInt i))).1.Format intType out = out ++ insertInt i) := by
  refine ⟨?_, ?_, ?_⟩
  · intro o t ht
    have e1 : ∀ (n : String) (r : Bool), Parse_bool n "true" r = (true, .ok ()) :=
      fun _ _ => rfl
    have e2 : ∀ (n : String) (r : Bool), Parse_bool n "false" r = (false, .ok ()) :=
      fun _ _ => rfl
    rcases ht with rfl | rfl
    · simp [scalar_parse_some, boolType, e1, ScalarOption.Format, Format_bool]
    · simp [scalar_parse_some, boolType, e2, ScalarOption.Format, Format_bool]
  · intro o t
    simp [scalar_parse_some, stringType, Parse_string, ScalarOption.Format, Format_string]
  · intro o i h1 h2
    have hp := Parse_int_of_number o.Name (insertInt i) o.value i (insertInt_number i) h1 h2
    simp [scalar_parse_some, intType, hp, ScalarOption.Format, Format_int]

/-- C7, at "true", at "some text" and at "42", the decimal text of 42. -/
theorem format_parse_round_trip_witness :
    ((ScalarOption.new boolType ⟨none, "b", "d", false⟩).Parse boolType
      (some "true")).1.Format boolType "" = "true" ∧
    ((ScalarOption.new stringType ⟨none, "s", "d", false⟩).Parse stringType
      (some "some text")).1.Format stringType "" = "some text" ∧
    insertInt 42 = "42" ∧
    ((ScalarOption.new intType ⟨none, "i", "d", false⟩).Parse intType
      (some (insertInt 42))).1.value = 42 ∧
    ((ScalarOption.new intType ⟨none, "i", "d", false⟩).Parse intType
      (some (insertInt 42))).1.Format intType "" = "42" :=
  ⟨((format_parse_round_trip "").1 _ "true" (Or.inl rfl)).2,
    ((format_parse_round_trip "").2.1 _ "some text").2,
    by decide,
    ((format_parse_round_trip "").2.2 _ 42 (by decide) (by decide)).2.1,
    ((format_parse_round_trip "").2.2 _ 42 (by decide) (by decide)).2.2⟩

/-- C8, as stated, fails: an `int` option parses "42abc" and "42 7" without an error and
holds 42 afterwards. -/
theorem int_parse_accepts_leading_number :
    (ScalarOption.new intType ⟨none, "count", "a count", false⟩).Parse intType (some "42abc")
      = ({ ScalarOption.new intType ⟨none, "count", "a count", false⟩ with value := 42 },
          .ok ()) ∧
    (ScalarOption.new intType ⟨none, "count", "a count", false⟩).Parse intType (some "42 7")
      = ({ ScalarOption.new intType ⟨none, "count", "a count", false⟩ with value := 42 },
          .ok ()) := by
  constructor <;> rfl

/-- C8, amended. `Parse` of a text into an `int` option returns exactly when the text
begins, after optional white space, with an optionally signed run of decimal digits that
denotes a representable `int`, whatever follows the digits, and the option then holds
that number; in every other case it throws the `ParseError` of the option and the
text. -/
theorem int_parse_leading_number (o : ScalarOption Int) (text : String) :
    ((o.Parse intType (some text)).2 = .ok () ↔
      ∃ v, StartsWithNumber text v ∧ INT_MIN ≤ v ∧ v ≤ INT_MAX) ∧
    ((¬ ∃ v, StartsWithNumber text v ∧ INT_MIN ≤ v ∧ v ≤ INT_MAX) →
      (o.Parse intType (some text)).2 = .error (ParseError.mk2 o.Name text)) ∧
    (∀ v, StartsWithNumber text v → INT_MIN ≤ v → v ≤ INT_MAX →
      o.Parse intType (some text) = ({ o with value := v }, .ok ())) := by
  have hval : ∀ v, StartsWithNumber text v → INT_MIN ≤ v → v ≤ INT_MAX →
      o.Parse intType (some text) = ({ o with value := v }, .ok ()) := by
    intro v hv h1 h2
    have hp := Parse_int_of_number o.Name text o.value v hv h1 h2
    simp [scalar_parse_some, intType, hp]
  have hconv : (extractInt text o.value).2 = false →
      ∃ v, StartsWithNumber text v ∧ INT_MIN ≤ v ∧ v ≤ INT_MAX := by
    intro h
    obtain ⟨v, hv, h1, h2, -⟩ := number_of_extractInt text o.value h
    exact ⟨v, hv, h1, h2⟩
  refine ⟨⟨?_, ?_⟩, ?_, hval⟩
  · intro h
    apply hconv
    cases hf : (extractInt text o.value).2
    · rfl
    · simp [scalar_parse_some, intType, Parse_int, hf] at h
  · rintro ⟨v, hv, h1, h2⟩
    rw [hval v hv h1 h2]
  · intro hno
    cases hf : (extractInt text o.value).2
    · exact absurd (hconv hf) hno
    · simp [scalar_parse_some, intType, Parse_int, hf]

/-- C8, amended, at "42abc" (the number 42, then "abc") and at "abc" (no number). -/
theorem int_parse_leading_number_witness :
    StartsWithNumber "42abc" 42 ∧
    ((ScalarOption.new intType ⟨none, "count", "a count", false⟩).Parse intType
      (some "42abc")).1.value = 42 ∧
    ((ScalarOption.new intType ⟨none, "count", "a count", false⟩).Parse intType
      (some "abc")).2 = .error (ParseError.mk2 "count" "abc") := by
  have hshape : StartsWithNumber "42abc" 42 :=
    ⟨[], [], ['4', '2'], ['a', 'b', 'c'], by decide, by decide, by decide, by decide,
      by decide, by decide, by decide⟩
  refine ⟨hshape, ?_, ?_⟩
  · rw [(int_parse_leading_number _ "42abc").2.2 42 hshape (by decide) (by decide)]
  · have hno : ¬ ∃ v, StartsWithNumber "abc" v ∧ INT_MIN ≤ v ∧ v ≤ INT_MAX := by
      intro hex
      have hok := ((int_parse_leading_number
        (ScalarOption.new intType ⟨none, "count", "a count", false⟩) "abc").1).2 hex
      have hr : ((ScalarOption.new intType ⟨none, "count", "a count", false⟩).Parse intType
          (some "abc")).2 = .error (ParseError.mk2 "count" "abc") := rfl
      rw [hr] at hok
      cases hok
    exact (int_parse_leading_number _ "abc").2.1 hno



/-! ## Maps -/

theorem lookup_filter_ne {κ ν : Type} [DecidableEq κ] (m : List (κ × ν)) (k k' : κ)
    (h : k' ≠ k) : (m.filter (fun e => !(e.1 == k))).lookup k' = m.lookup k' := by
  induction m with
  | nil => rfl
  | cons e m ih =>
    obtain ⟨a, b⟩ := e
    by_cases ha : a = k
    · subst ha
      have hne : (k' == a) = false := by simpa using h
      simp [List.filter_cons, List.lookup_cons, hne, ih]
    · have hne : (a == k) = false := by simpa using ha
      simp [List.filter_cons, List.lookup_cons, hne, ih]

theorem lookup_mapAssign_self {κ ν : Type} [DecidableEq κ] (m : List (κ × ν)) (k : κ)
    (v : ν) : (mapAssign m k v).lookup k = some v := by
  simp [mapAssign, List.lookup_cons]

theorem lookup_mapAssign_ne {κ ν : Type} [DecidableEq κ] (m : List (κ × ν)) (k k' : κ)
    (v : ν) (h : k' ≠ k) : (mapAssign m k v).lookup k' = m.lookup k' := by
  have hne : (k' == k) = false := by simpa using h
  simp [mapAssign, List.lookup_cons, hne, lookup_filter_ne m k k' h]

theorem lookup_mapAssign_mono {κ ν : Type} [DecidableEq κ] (m : List (κ × ν)) (k : κ)
    (v : ν) (hk : m.lookup k = none) (k' : κ) (v' : ν) (h : m.lookup k' = some v') :
    (mapAssign m k v).lookup k' = some v' := by
  have hne : k' ≠ k := by
    rintro rfl
    rw [hk] at h
    cases h
  rw [lookup_mapAssign_ne m k k' v hne, h]

theorem mapCount_pos {κ ν : Type} [DecidableEq κ] (m : List (κ × ν)) (k : κ) :
    mapCount m k > 0 ↔ ∃ v, m.lookup k = some v := by
  unfold mapCount
  cases h : m.lookup k <;> simp

/-! ## Later states -/

theorem groupLe_refl (g : Group) : GroupLe g g :=
  ⟨rfl, rfl, rfl, fun _ _ h => h, fun _ _ h => h⟩

theorem groupLe_trans {a b c : Group} (h1 : GroupLe a b) (h2 : GroupLe b c) : GroupLe a c :=
  ⟨h2.1.trans h1.1, h2.2.1.trans h1.2.1, h2.2.2.1.trans h1.2.2.1,
    fun n o h => h2.2.2.2.1 n o (h1.2.2.2.1 n o h),
    fun n o h => h2.2.2.2.2 n o (h1.2.2.2.2 n o h)⟩

theorem extends_refl (s : Store) : Extends s s :=
  ⟨fun _ g h => ⟨g, h, groupLe_refl g⟩, fun _ od h => ⟨od, h, rfl, rfl⟩⟩

theorem extends_trans {a b c : Store} (h1 : Extends a b) (h2 : Extends b c) : Extends a c := by
  refine ⟨?_, ?_⟩
  · intro i g hg
    obtain ⟨g', hg', hle⟩ := h1.1 i g hg
    obtain ⟨g'', hg'', hle'⟩ := h2.1 i g' hg'
    exact ⟨g'', hg'', groupLe_trans hle hle'⟩
  · intro j od hod
    obtain ⟨od', hod', hn, hs⟩ := h1.2 j od hod
    obtain ⟨od'', hod'', hn', hs'⟩ := h2.2 j od' hod'
    exact ⟨od'', hod'', hn'.trans hn, hs'.trans hs⟩

theorem extends_length_le {s s' : Store} (h : Extends s s') :
    s.groups.length ≤ s'.groups.length := by
  by_contra hlt
  have hlt : s'.groups.length < s.groups.length := by omega
  have hpos : s'.groups.length < s.groups.length := hlt
  obtain ⟨g', hg', -⟩ := h.1 s'.groups.length (s.groups[s'.groups.length])
    (List.getElem?_eq_getElem hpos)
  rw [List.getElem?_eq_none (Nat.le_refl _)] at hg'
  cases hg'

theorem updateGroup_extends (s : Store) (G : Nat) (f : Group → Group)
    (h : ∀ g, s.groups[G]? = some g → GroupLe g (f g)) : Extends s (s.updateGroup G f) := by
  refine ⟨?_, fun _ od hod => ⟨od, hod, rfl, rfl⟩⟩
  intro i g hg
  simp only [Store.updateGroup, List.getElem?_modify, hg, Option.map_eq_map, Option.map_some']
  by_cases hi : G = i
  · subst hi
    exact ⟨f g, by simp, h g hg⟩
  · exact ⟨g, by simp [hi], groupLe_refl g⟩

theorem updateGroup_length (s : Store) (G : Nat) (f : Group → Group) :
    (s.updateGroup G f).groups.length = s.groups.length := by
  simp [Store.updateGroup]

theorem wf_of_extends {s s' : Store} (hwf : WellFormed s) (h : Extends s s')
    (hlen : s'.groups.length = s.groups.length) : WellFormed s' := by
  obtain ⟨⟨r, hr, hrp, hrt⟩, hrest⟩ := hwf
  refine ⟨?_, ?_⟩
  · obtain ⟨r', hr', hle⟩ := h.1 0 r hr
    exact ⟨r', hr', by rw [hle.2.1, hrp], by rw [hle.2.2.1, hrt]⟩
  · intro i g' hi hg'
    have hlt : i < s.groups.length := by
      rw [← hlen]
      by_contra hge
      rw [List.getElem?_eq_none (by omega)] at hg'
      cases hg'
    obtain ⟨g'', hg'', hle⟩ := h.1 i _ (List.getElem?_eq_getElem hlt)
    rw [hg'] at hg''
    injection hg'' with hg''
    subst hg''
    obtain ⟨hnone, p, hp, hpi⟩ := hrest i _ hi (List.getElem?_eq_getElem hlt)
    refine ⟨?_, p, by rw [hle.2.1, hp], hpi⟩
    have := hle.2.2.1
    rw [hnone] at this
    cases hs : g'.d_shortFlags with
    | none => rfl
    | some t => rw [hs] at this; cases this

/-! ## Walking to the root -/

theorem wf_root {s : Store} (hwf : WellFormed s) :
    ∃ r t, s.groups[0]? = some r ∧ r.d_parent = none ∧ r.d_shortFlags = some t ∧
      rootTable s = t := by
  obtain ⟨⟨r, hr, hrp, hrt⟩, -⟩ := hwf
  cases ht : r.d_shortFlags with
  | none => rw [ht] at hrt; cases hrt
  | some t => exact ⟨r, t, hr, hrp, ht, by simp [rootTable, hr, ht]⟩

theorem prefixAux_wf {s : Store} (hwf : WellFormed s) (fuel G : Nat) (hf : G < fuel)
    (hG : G < s.groups.length) : ∃ r, prefixAux s fuel G = .ok r := by
  induction fuel generalizing G with
  | zero => omega
  | succ fuel ih =>
    unfold prefixAux
    rw [List.getElem?_eq_getElem hG]
    simp only
    by_cases h0 : G = 0
    · subst h0
      obtain ⟨r, t, hr, hrp, -, -⟩ := wf_root hwf
      rw [List.getElem?_eq_getElem hG] at hr
      injection hr with hr
      rw [hr, hrp]
      exact ⟨"", rfl⟩
    · obtain ⟨-, p, hp, hpG⟩ := hwf.2 G _ (by omega) (List.getElem?_eq_getElem hG)
      rw [hp]
      obtain ⟨r, hr⟩ := ih p (by omega) (by omega)
      simp only [hr]
      exact ⟨_, rfl⟩

theorem findShortAux_wf {s : Store} (hwf : WellFormed s) (c : Char) (fuel G : Nat)
    (hf : G < fuel) (hG : G < s.groups.length) :
    findShortAux s fuel G c = .ok ((rootTable s).lookup c) := by
  induction fuel generalizing G with
  | zero => omega
  | succ fuel ih =>
    unfold findShortAux
    rw [List.getElem?_eq_getElem hG]
    simp only
    by_cases h0 : G = 0
    · subst h0
      obtain ⟨r, t, hr, hrp, hrt, htab⟩ := wf_root hwf
      rw [List.getElem?_eq_getElem hG] at hr
      injection hr with hr
      rw [hr, hrp, hrt, htab]
    · obtain ⟨-, p, hp, hpG⟩ := hwf.2 G _ (by omega) (List.getElem?_eq_getElem hG)
      rw [hp]
      exact ih p (by omega) (by omega)

theorem findShort_wf {s : Store} (hwf : WellFormed s) (c : Char) (G : Nat)
    (hG : G < s.groups.length) : findShort s G c = .ok ((rootTable s).lookup c) :=
  findShortAux_wf hwf c _ G hG hG

theorem mayPushShortAux_wf {s : Store} (hwf : WellFormed s) (owner option : Nat)
    (od : OptionData) (hod : s.options[option]? = some od) (fuel G : Nat)
    (hf : G < fuel) (hG : G < s.groups.length) :
    mayPushShortAux s fuel G owner option =
      (match od.ShortFlag with
        | none => s
        | some c => s.updateGroup 0 (assignShort (rootTable s) c owner option),
        .ok ()) := by
  induction fuel generalizing G with
  | zero => omega
  | succ fuel ih =>
    unfold mayPushShortAux
    rw [hod]
    simp only
    cases hsf : od.ShortFlag with
    | none => rfl
    | some c =>
      simp only
      rw [List.getElem?_eq_getElem hG]
      simp only
      by_cases h0 : G = 0
      · subst h0
        obtain ⟨r, t, hr, hrp, hrt, htab⟩ := wf_root hwf
        rw [List.getElem?_eq_getElem hG] at hr
        injection hr with hr
        rw [hr, hrp, hrt, htab]
      · obtain ⟨-, p, hp, hpG⟩ := hwf.2 G _ (by omega) (List.getElem?_eq_getElem hG)
        rw [hp]
        simp only
        rw [ih p (by omega) (by omega), hsf]

theorem prefixAux_mono {s s' : Store} (h : Extends s s') (fuel G : Nat) (r : String)
    (hr : prefixAux s fuel G = .ok r) (k : Nat) : prefixAux s' (fuel + k) G = .ok r := by
  induction fuel generalizing G r with
  | zero => simp [prefixAux] at hr
  | succ fuel ih =>
    rw [Nat.add_right_comm]
    unfold prefixAux at hr ⊢
    cases hg : s.groups[G]? with
    | none => simp [hg] at hr
    | some g =>
      obtain ⟨g', hg', hle⟩ := h.1 G g hg
      rw [hg] at hr
      rw [hg']
      simp only at hr ⊢
      rw [hle.2.1, hle.1]
      cases hp : g.d_parent with
      | none => rw [hp] at hr; simpa using hr
      | some p =>
        rw [hp] at hr
        simp only at hr ⊢
        cases hrec : prefixAux s fuel p with
        | error e => rw [hrec] at hr; cases hr
        | ok q =>
          rw [hrec] at hr
          rw [ih p q hrec]
          exact hr



/-! ## `checkArgs` -/

theorem isEmpty_false_of_ne (t : String) (h : t ≠ "") : t.isEmpty = false := by
  cases hb : t.isEmpty
  · rfl
  · exact absurd (by simpa [String.isEmpty_iff] using hb) h

theorem lt_of_getElem?_some {α : Type} {l : List α} {i : Nat} {a : α} (h : l[i]? = some a) :
    i < l.length := by
  by_contra hge
  rw [List.getElem?_eq_none (by omega)] at h
  cases h

theorem fullOptionName_ok {s : Store} {G : Nat} {P : String}
    (h : groupPrefix s G = .ok P) (name : String) :
    fullOptionName s G name = .ok (P ++ name) := by
  simp [fullOptionName, h]

theorem checkArgsWith_ok {pd : String → Except Error (Option Char × String)} {s : Store}
    (hwf : WellFormed s) {G : Nat} {d desc : String} {args : OptionArgs}
    (h : checkArgsWith pd s G d desc = .ok args) :
    ∃ sf n grp, pd d = .ok (sf, n) ∧ args = ⟨sf, n, desc, false⟩ ∧
      s.groups[G]? = some grp ∧ grp.d_longFlags.lookup n = none ∧
      ∀ c, sf = some c → (rootTable s).lookup c = none := by
  unfold checkArgsWith at h
  by_cases h1 : desc.isEmpty = true
  · simp [h1] at h
  rw [if_neg h1] at h
  by_cases h2 : d.isEmpty = true
  · simp [h2] at h
  rw [if_neg h2] at h
  cases hpd : pd d with
  | error e => simp [hpd] at h
  | ok r =>
    obtain ⟨sf, n⟩ := r
    rw [hpd] at h
    simp only at h
    cases hg : s.groups[G]? with
    | none => simp [hg] at h
    | some grp =>
      rw [hg] at h
      simp only at h
      have hG := lt_of_getElem?_some hg
      by_cases h3 : mapCount grp.d_longFlags n > 0
      · rw [if_pos h3] at h
        cases hf : fullOptionName s G n with
        | error e => simp [hf] at h
        | ok full => simp [hf] at h
      rw [if_neg h3, findShort_wf hwf _ G hG] at h
      simp only at h
      have hlong : grp.d_longFlags.lookup n = none := by
        cases hl : grp.d_longFlags.lookup n with
        | none => rfl
        | some v => exact absurd ((mapCount_pos _ _).2 ⟨v, hl⟩) h3
      cases sf with
      | none =>
        simp only [Except.ok.injEq] at h
        exact ⟨none, n, grp, rfl, h.symm, rfl, hlong, by simp⟩
      | some c =>
        simp only [Option.getD_some] at h
        cases hl : (rootTable s).lookup c with
        | none =>
          rw [hl] at h
          simp only [Except.ok.injEq] at h
          refine ⟨some c, n, grp, rfl, h.symm, rfl, hlong, ?_⟩
          intro c' hc'
          injection hc' with hc'
          rw [← hc', hl]
        | some v =>
          obtain ⟨p, o⟩ := v
          rw [hl] at h
          simp only at h
          cases ho : s.options[o]? with
          | none => simp [ho] at h
          | some od =>
            rw [ho] at h
            simp only at h
            cases hf : fullOptionName s p od.Name with
            | error e => simp [hf] at h
            | ok full => simp [hf] at h

/-! ## The calls keep a tree well formed and only add to it -/

theorem rootTable_updateGroup (s : Store) (G : Nat) (f : Group → Group)
    (hf : ∀ g, (f g).d_shortFlags = g.d_shortFlags) :
    rootTable (s.updateGroup G f) = rootTable s := by
  unfold rootTable Store.updateGroup
  simp only [List.getElem?_modify]
  cases h0 : s.groups[0]? with
  | none => simp
  | some r =>
    by_cases hG : G = 0
    · simp [hG, hf]
    · simp [hG]

theorem rootTable_assignShort (s : Store) (r : Group) (hr : s.groups[0]? = some r)
    (T : List (Char × (Nat × Nat))) (c : Char) (owner option : Nat) :
    rootTable (s.updateGroup 0 (assignShort T c owner option))
      = mapAssign T c (owner, option) := by
  unfold rootTable Store.updateGroup
  simp [List.getElem?_modify, hr, assignShort]

theorem extends_assignLong {s : Store} {G : Nat} {grp : Group} (name : String) (o : Nat)
    (hg : s.groups[G]? = some grp) (hl : grp.d_longFlags.lookup name = none) :
    Extends s (s.updateGroup G (assignLong name o)) := by
  apply updateGroup_extends
  intro g hg'
  rw [hg] at hg'
  injection hg' with hg'
  subst hg'
  exact ⟨rfl, rfl, rfl, fun k v hk => lookup_mapAssign_mono _ _ _ hl k v hk, fun _ _ h => h⟩

theorem extends_assignShort {s : Store} (hwf : WellFormed s) (c : Char) (owner o : Nat)
    (hc : (rootTable s).lookup c = none) :
    Extends s (s.updateGroup 0 (assignShort (rootTable s) c owner o)) := by
  obtain ⟨r, t, hr, -, ht, htab⟩ := wf_root hwf
  apply updateGroup_extends
  intro g hg'
  rw [hr] at hg'
  injection hg' with hg'
  subst hg'
  refine ⟨rfl, rfl, by simp [ht, assignShort], fun _ _ h => h, ?_⟩
  intro k v hk
  rw [ht, Option.getD_some, ← htab] at hk
  simp only [assignShort, Option.getD_some]
  exact lookup_mapAssign_mono _ _ _ hc k v hk

theorem wf_updateGroup {s : Store} (hwf : WellFormed s) (G : Nat) (f : Group → Group)
    (hf : ∀ g, (f g).d_parent = g.d_parent ∧ (f g).d_shortFlags = g.d_shortFlags) :
    WellFormed (s.updateGroup G f) := by
  obtain ⟨⟨r, hr, hrp, hrt⟩, hrest⟩ := hwf
  refine ⟨?_, ?_⟩
  · by_cases hG : G = 0
    · subst hG
      refine ⟨f r, by simp [Store.updateGroup, hr], ?_, ?_⟩
      · rw [(hf r).1, hrp]
      · rw [(hf r).2, hrt]
    · exact ⟨r, by simp [Store.updateGroup, List.getElem?_modify_ne _ _ hG, hr], hrp, hrt⟩
  · intro i g' hi hg'
    simp only [Store.updateGroup, List.getElem?_modify] at hg'
    cases hgi : s.groups[i]? with
    | none => simp [hgi] at hg'
    | some g =>
      rw [hgi] at hg'
      simp only [Option.map_eq_map, Option.map_some', Option.some.injEq] at hg'
      obtain ⟨hnone, p, hp, hpi⟩ := hrest i g hi hgi
      by_cases hG : G = i
      · rw [if_pos hG] at hg'
        subst hg'
        exact ⟨by rw [(hf g).2, hnone], p, by rw [(hf g).1, hp], hpi⟩
      · rw [if_neg hG] at hg'
        subst hg'
        exact ⟨hnone, p, hp, hpi⟩

theorem pushOption_wf {s : Store} (hwf : WellFormed s) {G o : Nat} {grp : Group}
    {od : OptionData} (hg : s.groups[G]? = some grp) (ho : s.options[o]? = some od) :
    pushOption s G o =
      (match od.ShortFlag with
        | none => s.updateGroup G (assignLong od.Name o)
        | some c => (s.updateGroup G (assignLong od.Name o)).updateGroup 0
            (assignShort (rootTable s) c G o),
        .ok o) := by
  have hG : G < (s.updateGroup G (assignLong od.Name o)).groups.length := by
    rw [updateGroup_length]
    exact lt_of_getElem?_some hg
  have hw1 : WellFormed (s.updateGroup G (assignLong od.Name o)) :=
    wf_updateGroup hwf G _ (fun _ => ⟨rfl, rfl⟩)
  have ho1 : (s.updateGroup G (assignLong od.Name o)).options[o]? = some od := ho
  have hroot : rootTable (s.updateGroup G (assignLong od.Name o)) = rootTable s :=
    rootTable_updateGroup s G _ (fun _ => rfl)
  unfold pushOption
  simp only [ho, hg]
  unfold mayPushShort
  rw [mayPushShortAux_wf hw1 G o od ho1 _ G hG hG, hroot]

theorem addOptionWith_inv (pd : String → Except Error (Option Char × String))
    (build : OptionArgs → OptionData)
    (hb : ∀ a, (build a).Name = a.Name ∧ (build a).ShortFlag = a.ShortFlag)
    {s : Store} (hwf : WellFormed s) (G : Nat) (d desc : String) :
    WellFormed (addOptionWith pd build s G d desc).1 ∧
    Extends s (addOptionWith pd build s G d desc).1 ∧
    ∀ o, (addOptionWith pd build s G d desc).2 = .ok o →
      ∃ sf n grp', pd d = .ok (sf, n) ∧
        (addOptionWith pd build s G d desc).1.groups[G]? = some grp' ∧
        grp'.d_longFlags.lookup n = some o ∧
        (∃ od, (addOptionWith pd build s G d desc).1.options[o]? = some od ∧ od.Name = n) ∧
        ∀ c, sf = some c →
          (rootTable (addOptionWith pd build s G d desc).1).lookup c = some (G, o) := by
  unfold addOptionWith
  cases hc : checkArgsWith pd s G d desc with
  | error e =>
    refine ⟨hwf, extends_refl s, ?_⟩
    intro o ho
    cases ho
  | ok args =>
    obtain ⟨sf, n, grp, hpd, hargs, hg, hlong, hshort⟩ := checkArgsWith_ok hwf hc
    obtain ⟨hname, hsflag⟩ := hb args
    have hn : args.Name = n := by rw [hargs]
    have hs : args.ShortFlag = sf := by rw [hargs]
    rw [hn] at hname
    rw [hs] at hsflag
    simp only
    generalize build args = data at hname hsflag ⊢
    -- the option is constructed
    have hEa : Extends s { s with options := s.options ++ [data] } := by
      refine ⟨fun i g hi => ⟨g, hi, groupLe_refl g⟩, fun j od hj => ⟨od, ?_, rfl, rfl⟩⟩
      simp only
      rw [List.getElem?_append_left (lt_of_getElem?_some hj)]
      exact hj
    have hwa : WellFormed { s with options := s.options ++ [data] } := hwf
    have hopt : ({ s with options := s.options ++ [data] } : Store).options[
        s.options.length]? = some data := by
      simp
    have hga : ({ s with options := s.options ++ [data] } : Store).groups[G]? = some grp := hg
    have hroot0 : rootTable { s with options := s.options ++ [data] } = rootTable s := rfl
    rw [pushOption_wf hwa hga hopt, hname, hroot0]
    generalize hsa : ({ s with options := s.options ++ [data] } : Store) = sa at *
    have hE1 : Extends sa (sa.updateGroup G (assignLong n s.options.length)) :=
      extends_assignLong n _ hga hlong
    have hw1 : WellFormed (sa.updateGroup G (assignLong n s.options.length)) :=
      wf_updateGroup hwa G _ (fun _ => ⟨rfl, rfl⟩)
    have hg1 : (sa.updateGroup G (assignLong n s.options.length)).groups[G]?
        = some (assignLong n s.options.length grp) := by
      simp [Store.updateGroup, hga]
    have hl1 : (assignLong n s.options.length grp).d_longFlags.lookup n
        = some s.options.length := lookup_mapAssign_self _ _ _
    have hroot1 : rootTable (sa.updateGroup G (assignLong n s.options.length))
        = rootTable s := by
      rw [rootTable_updateGroup sa G (assignLong n s.options.length) (fun _ => rfl), hroot0]
    have hopt1 : (sa.updateGroup G (assignLong n s.options.length)).options[
        s.options.length]? = some data := hopt
    cases sf with
    | none =>
      rw [hsflag]
      simp only
      refine ⟨hw1, extends_trans hEa hE1, ?_⟩
      intro o ho
      injection ho with ho
      subst ho
      exact ⟨none, n, _, hpd, hg1, hl1, ⟨data, hopt1, hname⟩, by simp⟩
    | some c =>
      rw [hsflag]
      simp only
      have hcnone : (rootTable s).lookup c = none := hshort c rfl
      have hE2 := extends_assignShort hw1 c G s.options.length (by rw [hroot1]; exact hcnone)
      rw [hroot1] at hE2
      have hw2 := wf_of_extends hw1 hE2 (updateGroup_length _ _ _)
      refine ⟨hw2, extends_trans (extends_trans hEa hE1) hE2, ?_⟩
      intro o ho
      injection ho with ho
      subst ho
      obtain ⟨g2, hg2, hle2⟩ := hE2.1 G _ hg1
      obtain ⟨r1, -, hr1, -, -, -⟩ := wf_root hw1
      refine ⟨some c, n, g2, hpd, hg2, hle2.2.2.2.1 _ _ hl1, ⟨data, hopt1, hname⟩, ?_⟩
      intro c' hcs
      injection hcs with hcs
      subst hcs
      rw [rootTable_assignShort _ r1 hr1]
      exact lookup_mapAssign_self _ _ _



theorem AddSubgroup_inv {s : Store} (hwf : WellFormed s) (G : Nat) (name desc : String) :
    WellFormed (AddSubgroup s G name desc).1 ∧ Extends s (AddSubgroup s G name desc).1 := by
  unfold AddSubgroup
  cases checkName name with
  | error e => exact ⟨hwf, extends_refl s⟩
  | ok u =>
    simp only
    cases hg : s.groups[G]? with
    | none => exact ⟨hwf, extends_refl s⟩
    | some grp =>
      simp only
      by_cases hdup : (mapCount grp.d_subgroups name != 0) = true
      · rw [if_pos hdup]
        exact ⟨hwf, extends_refl s⟩
      rw [if_neg hdup]
      unfold Group.child
      by_cases hempty : name.isEmpty = true
      · rw [if_pos hempty]
        exact ⟨hwf, extends_refl s⟩
      rw [if_neg hempty]
      simp only
      have hG := lt_of_getElem?_some hg
      generalize hnew : Group.mk name desc [] (some G) none [] = child
      have hE1 : Extends s { s with groups := s.groups ++ [child] } := by
        refine ⟨fun i g hi => ⟨g, ?_, groupLe_refl g⟩, fun j od hj => ⟨od, hj, rfl, rfl⟩⟩
        simp only
        rw [List.getElem?_append_left (lt_of_getElem?_some hi)]
        exact hi
      have hw1 : WellFormed { s with groups := s.groups ++ [child] } := by
        obtain ⟨⟨r, hr, hrp, hrt⟩, hrest⟩ := hwf
        refine ⟨⟨r, ?_, hrp, hrt⟩, ?_⟩
        · simp only
          rw [List.getElem?_append_left (lt_of_getElem?_some hr)]
          exact hr
        · intro i g hi hgi
          simp only at hgi
          by_cases hlt : i < s.groups.length
          · rw [List.getElem?_append_left hlt] at hgi
            exact hrest i g hi hgi
          · rw [List.getElem?_append_right (by omega)] at hgi
            have hi0 : i - s.groups.length = 0 := by
              by_contra hne
              rw [List.getElem?_eq_none (by simp; omega)] at hgi
              cases hgi
            rw [hi0] at hgi
            simp only [List.getElem?_cons_zero, Option.some.injEq] at hgi
            subst hgi
            subst hnew
            exact ⟨rfl, G, rfl, by omega⟩
      refine ⟨wf_updateGroup hw1 G _ (fun _ => ⟨rfl, rfl⟩), extends_trans hE1 ?_⟩
      exact updateGroup_extends _ G _ (fun g _ => ⟨rfl, rfl, rfl, fun _ _ h => h, fun _ _ h => h⟩)

theorem SetRequired_inv {s : Store} (hwf : WellFormed s) (o : Nat) (r : Bool) :
    WellFormed (SetRequired s o r) ∧ Extends s (SetRequired s o r) := by
  refine ⟨hwf, fun i g hi => ⟨g, hi, groupLe_refl g⟩, ?_⟩
  intro j od hj
  refine ⟨if o = j then { od with Required := r } else od, ?_, ?_, ?_⟩
  · simp only [SetRequired, List.getElem?_modify, hj, Option.map_eq_map, Option.map_some']
  · split <;> rfl
  · split <;> rfl

theorem Call.run_inv (pd : String → Except Error (Option Char × String)) {s : Store}
    (hwf : WellFormed s) (call : Call) :
    WellFormed (call.run pd s) ∧ Extends s (call.run pd s) := by
  cases call with
  | addOption b G d desc =>
    have h := addOptionWith_inv pd (scalarData b) (fun _ => ⟨rfl, rfl⟩) hwf G d desc
    exact ⟨h.1, h.2.1⟩
  | addRepeatableOption b G d desc =>
    have h := addOptionWith_inv pd (repeatableData b) (fun _ => ⟨rfl, rfl⟩) hwf G d desc
    exact ⟨h.1, h.2.1⟩
  | addSubgroup G n desc => exact AddSubgroup_inv hwf G n desc
  | setRequired o r => exact SetRequired_inv hwf o r

theorem runCalls_inv (pd : String → Except Error (Option Char × String)) {s : Store}
    (hwf : WellFormed s) (calls : List Call) :
    WellFormed (runCalls pd s calls) ∧ Extends s (runCalls pd s calls) := by
  induction calls generalizing s with
  | nil => exact ⟨hwf, extends_refl s⟩
  | cons call calls ih =>
    have h1 := Call.run_inv pd hwf call
    have h2 := ih h1.1
    exact ⟨h2.1, extends_trans h1.2 h2.2⟩

theorem wellFormed_init : WellFormed Store.init := by
  refine ⟨⟨Group.root, rfl, rfl, rfl⟩, ?_⟩
  intro i g hi hg
  rw [List.getElem?_eq_none (by simp [Store.init]; omega)] at hg
  cases hg

theorem addOptionWith_error (pd : String → Except Error (Option Char × String))
    (build : OptionArgs → OptionData) (s : Store) (G : Nat) (d desc : String) (e : Error)
    (h : checkArgsWith pd s G d desc = .error e) :
    addOptionWith pd build s G d desc = (s, .error e) := by
  unfold addOptionWith
  rw [h]

/-! ## `SetDefault`, construction -/

/-- C11. `SetDefault(v)` on a scalar option, whatever it held and whatever its `Required`
flag: afterwards `Required()` is false, the value is v, `Format` writes what
`OptionBase::Format<T>` writes for v (the text itself, `true` / `false`, the decimal
digits), and `Name`, `Description`, `Short`, `NumArgs` and `Repeatable` are what they
were. -/
theorem setDefault_scalar {T : Type} (E : ElementType T) (o : ScalarOption T) (v : T)
    (out : String) :
    (o.SetDefault v).Required = false ∧
    (o.SetDefault v).value = v ∧
    (o.SetDefault v).Format E out = E.Format out v ∧
    (o.SetDefault v).Name = o.Name ∧
    (o.SetDefault v).Description = o.Description ∧
    (o.SetDefault v).Short = o.Short ∧
    (o.SetDefault v).NumArgs = o.NumArgs ∧
    (o.SetDefault v).Repeatable = o.Repeatable ∧
    (∀ (b : ScalarOption Bool) (x : Bool),
      (b.SetDefault x).Format boolType out = out ++ (if x then "true" else "false")) ∧
    (∀ (t : ScalarOption String) (x : String),
      (t.SetDefault x).Format stringType out = out ++ x) ∧
    (∀ (i : ScalarOption Int) (x : Int),
      (i.SetDefault x).Format intType out = out ++ insertInt x) ∧
    ((ScalarOption.new intType ⟨none, "count", "a count", false⟩).Required = true ∧
      ((ScalarOption.new intType ⟨none, "count", "a count", false⟩).SetDefault 42).Format
        intType "" = "42") :=
  ⟨rfl, rfl, rfl, rfl, rfl, rfl, rfl, rfl, fun _ _ => rfl, fun _ _ => rfl, fun _ _ => rfl,
    rfl, by decide⟩

/-- C15. A freshly constructed option, of either shape: `NumArgs()` is 0 for the element
type `bool` and 1 for any other; `Required()` is true exactly for a scalar option of a
type other than `bool`, and false for a boolean scalar option and for every repeatable
option. -/
theorem metadata_by_construction {T : Type} (E : ElementType T) (args : OptionArgs) :
    (ScalarOption.new E args).NumArgs = (if E.is_bool then 0 else 1) ∧
    (RepeatableOption.new E args).NumArgs = (if E.is_bool then 0 else 1) ∧
    ((ScalarOption.new E args).Required = true ↔ E.is_bool = false) ∧
    (RepeatableOption.new E args).Required = false ∧
    boolType.is_bool = true ∧ stringType.is_bool = false ∧ intType.is_bool = false ∧
    (ScalarOption.new boolType args).NumArgs = 0 ∧
    (ScalarOption.new boolType args).Required = false ∧
    (ScalarOption.new stringType args).NumArgs = 1 ∧
    (ScalarOption.new stringType args).Required = true ∧
    (ScalarOption.new intType args).NumArgs = 1 ∧
    (ScalarOption.new intType args).Required = true ∧
    (RepeatableOption.new boolType args).NumArgs = 0 ∧
    (RepeatableOption.new intType args).NumArgs = 1 := by
  refine ⟨rfl, rfl, ?_, rfl, rfl, rfl, rfl, rfl, rfl, rfl, rfl, rfl, rfl, rfl, rfl⟩
  cases hb : E.is_bool <;>
    simp [ScalarOption.new, ScalarOption.Required, scalarData, hb]

/-- C20. A freshly constructed `RepeatableOption`, whatever its element type and
arguments: `Repeatable()` returns false, as it does for a scalar `Option`; `Parse`,
`SetDefault` and `SetRequired` leave the flag of either shape as it is. -/
theorem repeatable_flag_is_false {T : Type} (E : ElementType T) (args : OptionArgs) :
    (RepeatableOption.new E args).Repeatable = false ∧
    (ScalarOption.new E args).Repeatable = false ∧
    (RepeatableOption.new intType ⟨some 'i', "include", "a directory", false⟩).Repeatable
      = false ∧
    (∀ (o : RepeatableOption T) (text : Option String) (vs : List T) (r : Bool),
      (o.Parse E text).1.Repeatable = o.Repeatable ∧
      (o.SetDefault vs).Repeatable = o.Repeatable ∧
      (o.SetRequired r).Repeatable = o.Repeatable) ∧
    (∀ (o : ScalarOption T) (text : Option String) (v : T) (r : Bool),
      (o.Parse E text).1.Repeatable = o.Repeatable ∧
      (o.SetDefault v).Repeatable = o.Repeatable ∧
      (o.SetRequired r).Repeatable = o.Repeatable) := by
  refine ⟨rfl, rfl, rfl, ?_, ?_⟩
  · intro o text vs r
    refine ⟨?_, rfl, rfl⟩
    unfold RepeatableOption.Parse
    split <;> rfl
  · intro o text v r
    refine ⟨?_, rfl, rfl⟩
    unfold ScalarOption.Parse
    split <;> rfl
/-! ## Group names -/

theorem isAlpha_eq_isAsciiLetter (c : Char) : c.isAlpha = isAsciiLetter c := by
  rw [Bool.eq_iff_iff]
  simp only [Char.isAlpha, Char.isUpper, Char.isLower, isAsciiLetter, Char.toNat,
    Bool.or_eq_true, Bool.and_eq_true, decide_eq_true_eq, ge_iff_le, UInt32.le_def,
    Fin.le_def]
  constructor
  · rintro (⟨h1, h2⟩ | ⟨h1, h2⟩)
    · exact Or.inr ⟨h1, h2⟩
    · exact Or.inl ⟨h1, h2⟩
  · rintro (⟨h1, h2⟩ | ⟨h1, h2⟩)
    · exact Or.inr ⟨h1, h2⟩
    · exact Or.inl ⟨h1, h2⟩

theorem isDigit_eq_isAsciiDigit (c : Char) : c.isDigit = isAsciiDigit c := by
  rw [Bool.eq_iff_iff]
  simp only [Char.isDigit, isAsciiDigit, Char.toNat, Bool.and_eq_true, decide_eq_true_eq,
    ge_iff_le, UInt32.le_def, Fin.le_def]
  exact Iff.rfl

theorem checkName_eq (name : String) :
    checkName name =
      if matchesNamePattern name = true then .ok ()
      else .error (.invalid_argument ("invalid name '" ++ name ++ "'")) := by
  unfold checkName matchesNamePattern
  cases name.toList with
  | nil => rfl
  | cons c cs =>
    have hall : (cs.all fun x => x.isAlpha || x == '-' || x == '_' || x.isDigit)
        = (cs.all fun x => isAsciiLetter x || isAsciiDigit x || x == '_' || x == '-') := by
      congr 1
      funext x
      rw [isAlpha_eq_isAsciiLetter, isDigit_eq_isAsciiDigit]
      cases isAsciiLetter x <;> cases isAsciiDigit x <;> cases (x == '_') <;>
        cases (x == '-') <;> rfl
    simp only
    rw [hall, isAlpha_eq_isAsciiLetter]

theorem isEmpty_false_of_matches (name : String) (h : matchesNamePattern name = true) :
    name.isEmpty = false := by
  apply isEmpty_false_of_ne
  rintro rfl
  exact absurd h (by decide)

theorem AddSubgroup_invalid (s : Store) (this : Nat) (name desc : String)
    (h : matchesNamePattern name = false) :
    AddSubgroup s this name desc
      = (s, .error (.invalid_argument ("invalid name '" ++ name ++ "'"))) := by
  unfold AddSubgroup
  rw [checkName_eq, h]
  rfl

/-- C12. `Group::checkName` returns for a name exactly when the whole name matches
`[a-zA-Z][a-zA-Z0-9_-]*` (not empty, an ASCII letter first, then ASCII letters, digits,
`_` and `-` only); for any other name it throws `std::invalid_argument`, and so does
`AddSubgroup` on any group, which leaves the tree as it was. -/
theorem group_name_validation (name : String) :
    (checkName name = .ok () ↔ matchesNamePattern name = true) ∧
    (matchesNamePattern name = false →
      checkName name = .error (.invalid_argument ("invalid name '" ++ name ++ "'")) ∧
      ∀ (s : Store) (this : Nat) (desc : String),
        AddSubgroup s this name desc
          = (s, .error (.invalid_argument ("invalid name '" ++ name ++ "'")))) := by
  refine ⟨?_, ?_⟩
  · rw [checkName_eq]
    cases h : matchesNamePattern name
    · simp
    · simp
  · intro h
    refine ⟨?_, fun s this desc => AddSubgroup_invalid s this name desc h⟩
    rw [checkName_eq, h]
    rfl

/-- C12, at the names "", "1abc", "a.b" and "a b", refused on a fresh root, and at
"net-1_x", accepted. -/
theorem group_name_validation_witness :
    (∀ name ∈ ["", "1abc", "a.b", "a b"],
      AddSubgroup Store.init 0 name "a group"
        = (Store.init, .error (.invalid_argument ("invalid name '" ++ name ++ "'")))) ∧
    checkName "net-1_x" = .ok () := by
  refine ⟨?_, (group_name_validation "net-1_x").1.2 (by decide)⟩
  intro name hname
  simp only [List.mem_cons, List.mem_singleton, List.mem_nil_iff, or_false] at hname
  rcases hname with rfl | rfl | rfl | rfl <;>
    exact ((group_name_validation _).2 (by decide)).2 Store.init 0 "a group"

/-- C13. On a group P of the tree and for a name n that matches the pattern, whatever the
description: if P has a subgroup named n, `AddSubgroup` throws `std::invalid_argument`
and leaves the tree as it was; if it has none, `AddSubgroup` returns a new group, whose
name is n and whose parent is P, the subgroup mapping of P is the old one with the one
entry from n to the new group added, and nothing else in the tree changes. -/
theorem duplicate_subgroup (s : Store) (P : Nat) (grp : Group) (n d : String)
    (hP : s.groups[P]? = some grp) (hn : matchesNamePattern n = true) :
    (∀ g, grp.d_subgroups.lookup n = some g →
      AddSubgroup s P n d
        = (s, .error (.invalid_argument ("group '" ++ n ++ "' already exist")))) ∧
    (grp.d_subgroups.lookup n = none →
      ∃ s', AddSubgroup s P n d = (s', .ok s.groups.length) ∧
        s'.groups[P]? = some { grp with d_subgroups := (n, s.groups.length) :: grp.d_subgroups }
        ∧ s'.groups[s.groups.length]? = some ⟨n, d, [], some P, none, []⟩ ∧
        s'.groups.length = s.groups.length + 1 ∧
        (∀ i, i ≠ P → i < s.groups.length → s'.groups[i]? = s.groups[i]?) ∧
        s'.options = s.options) := by
  have hP' := lt_of_getElem?_some hP
  have hcheck : checkName n = .ok () := by rw [checkName_eq, hn]; rfl
  have hne := isEmpty_false_of_matches n hn
  refine ⟨?_, ?_⟩
  · intro g hg
    unfold AddSubgroup
    simp [hcheck, hP, mapCount, hg]
  · intro hnone
    have key : ∃ s', AddSubgroup s P n d = (s', .ok s.groups.length) ∧
        s' = Store.updateGroup ⟨s.groups ++ [⟨n, d, [], some P, none, []⟩], s.options⟩ P
          (fun g => { g with d_subgroups := mapInsert g.d_subgroups n s.groups.length }) := by
      unfold AddSubgroup
      simp only [hcheck, hP, mapCount, hnone, Group.child, hne]
      exact ⟨_, rfl, rfl⟩
    obtain ⟨s', hrun, hs'⟩ := key
    subst hs'
    refine ⟨_, hrun, ?_, ?_, ?_, ?_, ?_⟩
    · simp only [Store.updateGroup, List.getElem?_modify_eq]
      rw [List.getElem?_append_left hP']
      simp [hP, mapInsert, hnone]
    · simp only [Store.updateGroup]
      rw [List.getElem?_modify_ne _ _ (Nat.ne_of_lt hP')]
      simp
    · simp [Store.updateGroup]
    · intro i hi hlt
      simp only [Store.updateGroup]
      rw [List.getElem?_modify_ne _ _ (Ne.symm hi), List.getElem?_append_left hlt]
    · rfl

/-- C13, on a fresh root: "net" is added and is a child of the root; a second "net" is
refused. -/
theorem duplicate_subgroup_witness :
    AddSubgroup Store.init 0 "net" "network" =
      (⟨[{ Group.root with d_subgroups := [("net", 1)] },
          ⟨"net", "network", [], some 0, none, []⟩], []⟩, .ok 1) ∧
    AddSubgroup (AddSubgroup Store.init 0 "net" "network").1 0 "net" "again"
      = ((AddSubgroup Store.init 0 "net" "network").1,
          .error (.invalid_argument "group 'net' already exist")) := by
  refine ⟨rfl, ?_⟩
  exact (duplicate_subgroup (AddSubgroup Store.init 0 "net" "network").1 0
    { Group.root with d_subgroups := [("net", 1)] } "net" "again" rfl (by decide)).1 1 rfl

/-! ## Empty arguments -/

theorem checkArgsWith_empty_description (pd : String → Except Error (Option Char × String))
    (s : Store) (this : Nat) (designator : String) :
    checkArgsWith pd s this designator ""
      = .error (.invalid_argument "Description cannot be empty") := by
  unfold checkArgsWith
  rfl

theorem checkArgsWith_empty_designator (pd : String → Except Error (Option Char × String))
    (s : Store) (this : Nat) (description : String) (h : description ≠ "") :
    checkArgsWith pd s this "" description
      = .error (.invalid_argument "Designator cannot be empty") := by
  unfold checkArgsWith
  rw [isEmpty_false_of_ne description h]
  rfl

/-- C14. Whatever the tree, the group and the function that splits a designator:
`checkArgs`, and with it `AddOption` in both overloads, throws `std::invalid_argument`
when the description is empty, whatever the designator, and when the designator is empty
and the description is not; the tree afterwards is the tree before. -/
theorem empty_arguments_rejected (pd : String → Except Error (Option Char × String))
    (b : Bool) (s : Store) (this : Nat) (designator description : String) :
    (description = "" →
      checkArgsWith pd s this designator description
        = .error (.invalid_argument "Description cannot be empty") ∧
      checkArgs s this designator description
        = .error (.invalid_argument "Description cannot be empty") ∧
      AddOptionWith pd b s this designator description
        = (s, .error (.invalid_argument "Description cannot be empty")) ∧
      AddRepeatableOptionWith pd b s this designator description
        = (s, .error (.invalid_argument "Description cannot be empty")) ∧
      AddOption b s this designator description
        = (s, .error (.invalid_argument "Description cannot be empty"))) ∧
    (description ≠ "" → designator = "" →
      checkArgsWith pd s this designator description
        = .error (.invalid_argument "Designator cannot be empty") ∧
      checkArgs s this designator description
        = .error (.invalid_argument "Designator cannot be empty") ∧
      AddOptionWith pd b s this designator description
        = (s, .error (.invalid_argument "Designator cannot be empty")) ∧
      AddRepeatableOptionWith pd b s this designator description
        = (s, .error (.invalid_argument "Designator cannot be empty")) ∧
      AddOption b s this designator description
        = (s, .error (.invalid_argument "Designator cannot be empty"))) := by
  refine ⟨?_, ?_⟩
  · rintro rfl
    exact ⟨checkArgsWith_empty_description pd s this designator,
      checkArgsWith_empty_description _ s this designator,
      addOptionWith_error pd (scalarData b) s this designator "" _
        (checkArgsWith_empty_description pd s this designator),
      addOptionWith_error pd (repeatableData b) s this designator "" _
        (checkArgsWith_empty_description pd s this designator),
      addOptionWith_error parseDesignator (scalarData b) s this designator "" _
        (checkArgsWith_empty_description parseDesignator s this designator)⟩
  · rintro hd rfl
    exact ⟨checkArgsWith_empty_designator pd s this description hd,
      checkArgsWith_empty_designator _ s this description hd,
      addOptionWith_error pd (scalarData b) s this "" description _
        (checkArgsWith_empty_designator pd s this description hd),
      addOptionWith_error pd (repeatableData b) s this "" description _
        (checkArgsWith_empty_designator pd s this description hd),
      addOptionWith_error parseDesignator (scalarData b) s this "" description _
        (checkArgsWith_empty_designator parseDesignator s this description hd)⟩

/-- C14, on a fresh root: `AddOption("v,verbose", "")` and `AddOption("", "be chatty")`. -/
theorem empty_arguments_rejected_witness :
    AddOption false Store.init 0 "v,verbose" ""
      = (Store.init, .error (.invalid_argument "Description cannot be empty")) ∧
    AddOption false Store.init 0 "" "be chatty"
      = (Store.init, .error (.invalid_argument "Designator cannot be empty")) :=
  ⟨((empty_arguments_rejected parseDesignator false Store.init 0 "v,verbose" "").1
      rfl).2.2.2.2,
    ((empty_arguments_rejected parseDesignator false Store.init 0 "" "be chatty").2
      (by decide) rfl).2.2.2.2⟩
/-! ## Walking to the root: `prefix`, `findShort`, `mayPushShort` -/

theorem prefixAux_fuel {s : Store} (hwf : WellFormed s) (G fuel fuel' : Nat) (hG : G < fuel)
    (hG' : G < fuel') (hlt : G < s.groups.length) : prefixAux s fuel G = prefixAux s fuel' G := by
  obtain ⟨r, hr⟩ := prefixAux_wf hwf (G + 1) G (Nat.lt_succ_self G) hlt
  have h1 := prefixAux_mono (extends_refl s) (G + 1) G r hr (fuel - (G + 1))
  have h2 := prefixAux_mono (extends_refl s) (G + 1) G r hr (fuel' - (G + 1))
  rw [Nat.add_sub_cancel' (by omega)] at h1 h2
  rw [h1, h2]

theorem groupPrefix_root (s : Store) (G : Nat) (g : Group) (hg : s.groups[G]? = some g)
    (hp : g.d_parent = none) : groupPrefix s G = .ok "" := by
  have hlt := lt_of_getElem?_some hg
  unfold groupPrefix
  obtain ⟨k, hk⟩ : ∃ k, s.groups.length = k + 1 := ⟨s.groups.length - 1, by omega⟩
  rw [hk]
  unfold prefixAux
  simp only [hg, hp]

theorem groupPrefix_child {s : Store} (hwf : WellFormed s) (G p : Nat) (g : Group) (P : String)
    (hg : s.groups[G]? = some g) (hp : g.d_parent = some p) (hP : groupPrefix s p = .ok P) :
    groupPrefix s G = .ok (P ++ g.d_name ++ ".") := by
  have hlt := lt_of_getElem?_some hg
  have hG0 : 0 < G := by
    by_contra h0
    have h0' : G = 0 := by omega
    subst h0'
    obtain ⟨r, -, hr, hrp, -, -⟩ := wf_root hwf
    rw [hg] at hr
    injection hr with hr
    subst hr
    rw [hrp] at hp
    cases hp
  obtain ⟨-, p', hp', hpG⟩ := hwf.2 G g hG0 hg
  rw [hp] at hp'
  injection hp' with hp'
  subst hp'
  unfold groupPrefix at hP ⊢
  obtain ⟨k, hk⟩ : ∃ k, s.groups.length = k + 1 := ⟨s.groups.length - 1, by omega⟩
  rw [prefixAux_fuel hwf p _ k (by omega) (by omega) (by omega)] at hP
  rw [hk]
  unfold prefixAux
  simp only [hg, hp, hP]

theorem groupPrefix_chain {s : Store} (hwf : WellFormed s) (path : List Nat) (p : Nat)
    (P : String) (hP : groupPrefix s p = .ok P) (hchain : isChain s p path = true)
    (gk : Nat) (hlast : (p :: path).getLast? = some gk) :
    groupPrefix s gk = .ok (P ++ dotted (chainNames s path)) := by
  induction path generalizing p P with
  | nil =>
    simp only [List.getLast?_singleton, Option.some.injEq] at hlast
    subst hlast
    simpa [chainNames, dotted] using hP
  | cons g rest ih =>
    simp only [isChain, Bool.and_eq_true] at hchain
    obtain ⟨hg, hrest⟩ := hchain
    cases hgrp : s.groups[g]? with
    | none => simp [hgrp] at hg
    | some grp =>
      rw [hgrp] at hg
      have hpar : grp.d_parent = some p := by simpa using hg
      have hstep := groupPrefix_child hwf g p grp P hgrp hpar hP
      have hlast' : (g :: rest).getLast? = some gk := by
        rw [List.getLast?_cons_cons] at hlast
        exact hlast
      have := ih g _ hstep hrest hlast'
      rw [this]
      simp [chainNames, dotted, hgrp, String.append_assoc]

theorem intercalate_go_dotted (acc : String) (names : List String) (n : String) :
    String.intercalate.go acc "." (names ++ [n]) = acc ++ "." ++ dotted names ++ n := by
  induction names generalizing acc with
  | nil => simp [String.intercalate.go, dotted]
  | cons x xs ih =>
    rw [List.cons_append, String.intercalate.go, ih]
    simp [dotted, String.append_assoc]

theorem intercalate_dotted (names : List String) (n : String) :
    ".".intercalate (names ++ [n]) = dotted names ++ n := by
  cases names with
  | nil => simp [String.intercalate, String.intercalate.go, dotted]
  | cons a as =>
    rw [List.cons_append, String.intercalate, intercalate_go_dotted]
    simp [dotted, String.append_assoc]

/-- C17. In a well-formed tree: `prefix()` of the root is empty and its
`fullOptionName(n)` is n; for a chain of nested groups root -> g1 -> ... -> gk,
`prefix()` of gk is name(g1) + "." + ... + name(gk) + ".", and `fullOptionName(n)` of gk
is the names of g1, ..., gk and n joined by "." ("a.b.n"). -/
theorem dotted_full_name (s : Store) (hwf : WellFormed s) :
    groupPrefix s 0 = .ok "" ∧
    (∀ n, fullOptionName s 0 n = .ok n) ∧
    ∀ (path : List Nat) (gk : Nat), isChain s 0 path = true → path.getLast? = some gk →
      groupPrefix s gk = .ok (dotted (chainNames s path)) ∧
      ∀ n, fullOptionName s gk n = .ok (dotted (chainNames s path) ++ n) ∧
        fullOptionName s gk n = .ok (".".intercalate (chainNames s path ++ [n])) := by
  obtain ⟨r, -, hr, hrp, -, -⟩ := wf_root hwf
  have h0 := groupPrefix_root s 0 r hr hrp
  refine ⟨h0, fun n => by simp [fullOptionName, h0], ?_⟩
  intro path gk hchain hlast
  have hlast' : (0 :: path).getLast? = some gk := by
    cases path with
    | nil => simp at hlast
    | cons g rest => rw [List.getLast?_cons_cons]; exact hlast
  have hk := groupPrefix_chain hwf path 0 "" h0 hchain gk hlast'
  rw [String.empty_append] at hk
  refine ⟨hk, fun n => ⟨fullOptionName_ok hk n, ?_⟩⟩
  rw [intercalate_dotted]
  exact fullOptionName_ok hk n

/-- C17, on the tree root -> "a" -> "b": the prefix of "b" is "a.b." and its full name
for "n" is "a.b.n". -/
theorem dotted_full_name_witness :
    groupPrefix (runCalls parseDesignator Store.init
        [.addSubgroup 0 "a" "first", .addSubgroup 1 "b" "second"]) 2 = .ok "a.b." ∧
    fullOptionName (runCalls parseDesignator Store.init
        [.addSubgroup 0 "a" "first", .addSubgroup 1 "b" "second"]) 2 "n" = .ok "a.b.n" := by
  have h := (dotted_full_name (runCalls parseDesignator Store.init
    [.addSubgroup 0 "a" "first", .addSubgroup 1 "b" "second"])
    (runCalls_inv parseDesignator wellFormed_init _).1).2.2 [1, 2] 2 (by decide) rfl
  exact ⟨h.1, (h.2 "n").1⟩

/-- C18. In a well-formed tree (group 0 has no parent and owns a table, every other
group has a parent and no table), for every group G and character c: `findShort(c)` on G
returns, and what it returns is the entry under c in the table of the root, or the pair
of null pointers when the table has none; it does not throw. -/
theorem findShort_delegates (s : Store) (hwf : WellFormed s) (G : Nat)
    (hG : G < s.groups.length) (c : Char) :
    ∃ root table, s.groups[0]? = some root ∧ root.d_parent = none ∧
      root.d_shortFlags = some table ∧
      findShort s G c = .ok (table.lookup c) ∧
      findShort s G c ≠ .error (.logic_error "invalid group hierarchy") := by
  obtain ⟨r, t, hr, hrp, hrt, htab⟩ := wf_root hwf
  have h := findShort_wf hwf c G hG
  rw [htab] at h
  refine ⟨r, t, hr, hrp, hrt, h, ?_⟩
  rw [h]
  intro hcontra
  cases hcontra

theorem groups_assignShort_ne (s : Store) (T : List (Char × (Nat × Nat))) (c : Char)
    (owner o i : Nat) (hi : i ≠ 0) :
    (s.updateGroup 0 (assignShort T c owner o)).groups[i]? = s.groups[i]? := by
  simp only [Store.updateGroup]
  exact List.getElem?_modify_ne _ _ (Ne.symm hi)

/-- C19. In a well-formed tree, for every group G, owner and option: when the option
declares the short flag c, `mayPushShort(owner, option)` on G returns, the table of the
root then maps c to (owner, option) and every other character to what it mapped before,
the root is otherwise what it was, every other group and every option is what it was
(so no other group has a table), and the tree is still well formed; when the option
declares no short flag, the tree afterwards is the tree before. -/
theorem mayPushShort_writes_root (s : Store) (hwf : WellFormed s) (G owner o : Nat)
    (od : OptionData) (hG : G < s.groups.length) (ho : s.options[o]? = some od) :
    (od.ShortFlag = none → mayPushShort s G owner o = (s, .ok ())) ∧
    (∀ c, od.ShortFlag = some c →
      ∃ s' root, mayPushShort s G owner o = (s', .ok ()) ∧
        (rootTable s').lookup c = some (owner, o) ∧
        (∀ c', c' ≠ c → (rootTable s').lookup c' = (rootTable s).lookup c') ∧
        s.groups[0]? = some root ∧
        s'.groups[0]? = some { root with d_shortFlags := some (rootTable s') } ∧
        (∀ i, i ≠ 0 → s'.groups[i]? = s.groups[i]?) ∧
        (∀ i g, i ≠ 0 → s'.groups[i]? = some g → g.d_shortFlags = none) ∧
        s'.options = s.options ∧
        WellFormed s') := by
  have hrun := mayPushShortAux_wf hwf owner o od ho _ G hG hG
  refine ⟨?_, ?_⟩
  · intro hnone
    unfold mayPushShort
    rw [hrun, hnone]
  · intro c hc
    obtain ⟨r, t, hr, -, -, -⟩ := wf_root hwf
    have htab := rootTable_assignShort s r hr (rootTable s) c owner o
    have hw' : WellFormed (s.updateGroup 0 (assignShort (rootTable s) c owner o)) := by
      obtain ⟨⟨r0, hr0, hrp0, hrt0⟩, hrest⟩ := hwf
      refine ⟨⟨assignShort (rootTable s) c owner o r0, ?_, hrp0, rfl⟩, ?_⟩
      · simp [Store.updateGroup, hr0]
      · intro i g hi hg
        rw [groups_assignShort_ne s _ c owner o i (by omega)] at hg
        exact hrest i g hi hg
    refine ⟨s.updateGroup 0 (assignShort (rootTable s) c owner o), r, ?_, ?_, ?_, hr, ?_,
      ?_, ?_, rfl, hw'⟩
    · unfold mayPushShort
      rw [hrun, hc]
    · rw [htab]
      exact lookup_mapAssign_self _ _ _
    · intro c' hc'
      rw [htab]
      exact lookup_mapAssign_ne _ _ _ _ hc'
    · rw [htab]
      simp [Store.updateGroup, hr, assignShort]
    · intro i hi
      exact groups_assignShort_ne s _ c owner o i hi
    · intro i g hi hg
      exact (hw'.2 i g (by omega) hg).1

/-! ## `AddOption` with the `parseDesignator` of the source -/

theorem wf_assignShort {s : Store} (hwf : WellFormed s) (T : List (Char × (Nat × Nat)))
    (c : Char) (owner o : Nat) : WellFormed (s.updateGroup 0 (assignShort T c owner o)) := by
  obtain ⟨⟨r0, hr0, hrp0, -⟩, hrest⟩ := hwf
  refine ⟨⟨assignShort T c owner o r0, ?_, hrp0, rfl⟩, ?_⟩
  · simp [Store.updateGroup, hr0]
  · intro i g hi hg
    rw [groups_assignShort_ne s _ c owner o i (by omega)] at hg
    exact hrest i g hi hg

theorem pushOption_wellFormed {s : Store} (hwf : WellFormed s) {G o : Nat} {grp : Group}
    {od : OptionData} (hg : s.groups[G]? = some grp) (ho : s.options[o]? = some od) :
    WellFormed (pushOption s G o).1 := by
  rw [pushOption_wf hwf hg ho]
  have h1 : WellFormed (s.updateGroup G (assignLong od.Name o)) :=
    wf_updateGroup hwf G _ (fun _ => ⟨rfl, rfl⟩)
  cases od.ShortFlag with
  | none => exact h1
  | some c => exact wf_assignShort h1 _ c G o

/-- C18, on the tree root -> "net" -> "tcp" with the option "port" of "net", short flag
p, stored by `pushOption`: from "tcp", `findShort` finds p as the root's table has it, and
does not find q. -/
theorem findShort_delegates_witness :
    findShort (pushOption
        ⟨(runCalls parseDesignator Store.init
            [.addSubgroup 0 "net" "network", .addSubgroup 1 "tcp" "transport"]).groups,
          [scalarData false ⟨some 'p', "port", "the port", false⟩]⟩ 1 0).1 2 'p'
      = .ok (some (1, 0)) ∧
    findShort (pushOption
        ⟨(runCalls parseDesignator Store.init
            [.addSubgroup 0 "net" "network", .addSubgroup 1 "tcp" "transport"]).groups,
          [scalarData false ⟨some 'p', "port", "the port", false⟩]⟩ 1 0).1 2 'q'
      = .ok none := by
  have hbase : WellFormed
      ⟨(runCalls parseDesignator Store.init
          [.addSubgroup 0 "net" "network", .addSubgroup 1 "tcp" "transport"]).groups,
        [scalarData false ⟨some 'p', "port", "the port", false⟩]⟩ :=
    (runCalls_inv parseDesignator wellFormed_init
      [.addSubgroup 0 "net" "network", .addSubgroup 1 "tcp" "transport"]).1
  obtain ⟨root, table, hroot, -, htable, hfind, -⟩ :=
    findShort_delegates _ (pushOption_wellFormed hbase (G := 1) (o := 0) rfl rfl) 2
      (by decide) 'p'
  constructor
  · rw [hfind]
    have hr : root = ⟨"", "", [], none, some [('p', (1, 0))], [("net", 1)]⟩ := by
      have h' : (pushOption
        ⟨(runCalls parseDesignator Store.init
            [.addSubgroup 0 "net" "network", .addSubgroup 1 "tcp" "transport"]).groups,
          [scalarData false ⟨some 'p', "port", "the port", false⟩]⟩ 1 0).1.groups[0]?
          = some ⟨"", "", [], none, some [('p', (1, 0))], [("net", 1)]⟩ := rfl
      rw [h'] at hroot
      injection hroot with hroot
      exact hroot.symm
    subst hr
    injection htable with htable
    subst htable
    rfl
  · rfl

/-- C19, on the tree root -> "net" with the option "port" of "net", short flag p, stored
by `pushOption`: pushed again from "net" with the root as owner, the entry under p
becomes (root, option), and "net" is what it was. -/
theorem mayPushShort_writes_root_witness :
    ∃ s', mayPushShort (pushOption
        ⟨(runCalls parseDesignator Store.init [.addSubgroup 0 "net" "network"]).groups,
          [scalarData false ⟨some 'p', "port", "the port", false⟩]⟩ 1 0).1 1 0 0
        = (s', .ok ()) ∧
      (rootTable s').lookup 'p' = some (0, 0) ∧
      s'.groups[1]? = (pushOption
        ⟨(runCalls parseDesignator Store.init [.addSubgroup 0 "net" "network"]).groups,
          [scalarData false ⟨some 'p', "port", "the port", false⟩]⟩ 1 0).1.groups[1]? := by
  have hbase : WellFormed
      ⟨(runCalls parseDesignator Store.init [.addSubgroup 0 "net" "network"]).groups,
        [scalarData false ⟨some 'p', "port", "the port", false⟩]⟩ :=
    (runCalls_inv parseDesignator wellFormed_init [.addSubgroup 0 "net" "network"]).1
  obtain ⟨s', -, hrun, hp, -, -, -, hrest, -⟩ :=
    (mayPushShort_writes_root _ (pushOption_wellFormed hbase (G := 1) (o := 0) rfl rfl) 1 0 0
      ⟨some 'p', "port", "the port", 1, true, false⟩ (by decide) rfl).2 'p' rfl
  exact ⟨s', hrun, hp, hrest 1 (by decide)⟩

end fort.options
